import Mathlib

/-!
# Static call-graph extractor (`go-graphviz-anlazy/main.go`)

A shallow embedding of the call-graph tool: the `Function` identity, the
`CallGraph` accumulator with `AddNode` / `AddEdge`, the call resolver
(`parseCallExpr`, `analyzeFunction`, `processFile`), the exporter
(`generateDot`) and the part of the Go syntax tree (`go/ast`) those functions
look at.

Modelling decisions.

* A Go `map[K]V` is a finite map with unique keys, `AList`; the iteration
  order of a Go map is unspecified, and nothing below depends on the order of
  the entries.
* The graph is passed and returned explicitly instead of being mutated
  through a pointer.
* A run-time panic (index out of range, nil dereference) is an `Except.error`.
* Standard output is the list of the lines written, without their newlines.
* A Go string is the UTF-8 encoding of a Lean `String`; indexing it yields a
  byte.
* `go/ast` is library code: a syntax-tree node is one of the four node types
  the program inspects (`*ast.Ident`, `*ast.SelectorExpr`, `*ast.StarExpr`,
  `*ast.CallExpr`) or any other node type, given by its kind and by the list
  of children `ast.Walk` visits, in order.
-/

set_option autoImplicit false

namespace CallGraphTool

/-! ## Data model (main.go lines 14-43) -/

/-- Function identity: `type Function struct { Name, Receiver, Package string }`. -/
structure Function where
  Name : String
  Receiver : String
  Package : String
deriving DecidableEq, Repr

/-- The zero value `Function{}`. -/
def Function.zero : Function := { Name := "", Receiver := "", Package := "" }

/-- A Go map `map[K]V`: finitely many entries, no key twice. -/
abbrev GoMap (K : Type) (V : Type) := AList (fun _ : K => V)

/-- Call graph: `Nodes map[Function]bool`, `Edges map[Function]map[Function]bool`. -/
structure CallGraph where
  Nodes : GoMap Function Bool
  Edges : GoMap Function (GoMap Function Bool)

/-- `NewCallGraph()`: both maps freshly made, hence empty. -/
def NewCallGraph : CallGraph := { Nodes := ∅, Edges := ∅ }

/-- `cg.Nodes[fn] = true`. -/
def CallGraph.AddNode (cg : CallGraph) (fn : Function) : CallGraph :=
  { cg with Nodes := cg.Nodes.insert fn true }

/-- `AddEdge(from, to)`: when `cg.Edges[from]` is nil (no entry) a fresh map
is stored there; then `cg.Edges[from][to] = true`. The node map is not
touched. -/
def CallGraph.AddEdge (cg : CallGraph) (from_ to_ : Function) : CallGraph :=
  match cg.Edges.lookup from_ with
  | none =>
      { cg with Edges := cg.Edges.insert from_ ((∅ : GoMap Function Bool).insert to_ true) }
  | some tos =>
      { cg with Edges := cg.Edges.insert from_ (tos.insert to_ true) }

/-- The identity `f` is a key of `Nodes` (what `range graph.Nodes` yields). -/
def CallGraph.hasNode (cg : CallGraph) (f : Function) : Prop :=
  f ∈ cg.Nodes.keys

/-- The identity `a` is a key of `Edges`. -/
def CallGraph.hasEdgeKey (cg : CallGraph) (a : Function) : Prop :=
  a ∈ cg.Edges.keys

/-- The pair `a -> b` is an edge: `a` is a key of `Edges` and `b` is a key of
`Edges[a]` (what the nested `range` loops of `generateDot` yield). -/
def CallGraph.hasEdge (cg : CallGraph) (a b : Function) : Prop :=
  ∃ tos ∈ cg.Edges.lookup a, b ∈ tos.keys

instance (cg : CallGraph) (f : Function) : Decidable (cg.hasNode f) :=
  inferInstanceAs (Decidable (f ∈ cg.Nodes.keys))

instance (cg : CallGraph) (a : Function) : Decidable (cg.hasEdgeKey a) :=
  inferInstanceAs (Decidable (a ∈ cg.Edges.keys))

instance (cg : CallGraph) (a b : Function) : Decidable (cg.hasEdge a b) :=
  inferInstanceAs (Decidable (∃ tos ∈ cg.Edges.lookup a, b ∈ tos.keys))

/-- The nodes in the order `range graph.Nodes` of `generateDot` yields them. -/
def CallGraph.nodeList (cg : CallGraph) : List Function :=
  cg.Nodes.keys

/-- The edges in the order the nested `range` loops of `generateDot` yield
them: every key `a` of `Edges` with every key `b` of `Edges[a]`. -/
def CallGraph.edgeList (cg : CallGraph) : List (Function × Function) :=
  cg.Edges.entries.flatMap (fun e => e.2.keys.map (fun b => (e.1, b)))

/-! ## Syntax trees (`go/ast`) -/

/-- Node types of `go/ast` other than the four the program inspects, as
listed in the type switch of `ast.Walk`. -/
inductive NodeKind where
  | Comment | CommentGroup | Field | FieldList
  | BadExpr | BasicLit | Ellipsis | FuncLit | CompositeLit | ParenExpr
  | IndexExpr | IndexListExpr | SliceExpr | TypeAssertExpr
  | UnaryExpr | BinaryExpr | KeyValueExpr
  | ArrayType | StructType | FuncType | InterfaceType | MapType | ChanType
  | BadStmt | DeclStmt | EmptyStmt | LabeledStmt | ExprStmt | SendStmt
  | IncDecStmt | AssignStmt | GoStmt | DeferStmt | ReturnStmt | BranchStmt
  | BlockStmt | IfStmt | CaseClause | SwitchStmt | TypeSwitchStmt
  | CommClause | SelectStmt | ForStmt | RangeStmt
  | ImportSpec | ValueSpec | TypeSpec | BadDecl | GenDecl | FuncDecl
deriving DecidableEq, Repr

/-- A syntax-tree node (`ast.Node`). `Other kind children` is a node of any
type besides identifier, selector, star and call expression; `children` are
the non-nil child nodes in the order `ast.Walk` visits them. -/
inductive Node where
  | Ident (Name : String)
  | SelectorExpr (X : Node) (Sel : String)
  | StarExpr (X : Node)
  | CallExpr (Fun : Node) (Args : List Node)
  | Other (kind : NodeKind) (children : List Node)
deriving Repr

/-- One entry of a parameter or receiver list (`ast.Field`). -/
structure Field where
  Names : List String
  Type_ : Node

/-- Function declaration (`ast.FuncDecl`). `Recv` is `none` when `fn.Recv` is
nil and otherwise holds `fn.Recv.List`; `Params` is `fn.Type.Params.List`;
`Body` is `none` when `fn.Body` is nil (a declaration without a body) and
otherwise holds `fn.Body.List`. -/
structure FuncDecl where
  Recv : Option (List Field)
  Name : String
  Params : List Field
  Body : Option (List Node)

/-- Top-level declaration (`ast.Decl`): a function declaration or a general
declaration (import, const, type, var). -/
inductive Decl where
  | FuncDecl (fn : FuncDecl)
  | GenDecl

/-- A parsed source file (`ast.File`): package name and declarations. -/
structure File where
  Name : String
  Decls : List Decl

/-- Run-time panics the program can raise. -/
inductive Panic where
  | indexOutOfRange
  | nilDereference
deriving DecidableEq, Repr

mutual
/-- All nodes of the subtree rooted at a node, the root first. -/
def Node.subnodes : Node → List Node
  | .Ident nm => [.Ident nm]
  | .SelectorExpr x sel => .SelectorExpr x sel :: (x.subnodes ++ [.Ident sel])
  | .StarExpr x => .StarExpr x :: x.subnodes
  | .CallExpr f args => .CallExpr f args :: (f.subnodes ++ Node.subnodesList args)
  | .Other k cs => .Other k cs :: Node.subnodesList cs
/-- All nodes of the subtrees rooted at the nodes of a list. -/
def Node.subnodesList : List Node → List Node
  | [] => []
  | n :: ns => n.subnodes ++ Node.subnodesList ns
end

/-- The node is a call expression (`*ast.CallExpr`). -/
def Node.isCall : Node → Bool
  | .CallExpr _ _ => true
  | _ => false

/-- All call expressions occurring anywhere in the subtree rooted at a node. -/
def callExprs (n : Node) : List Node :=
  n.subnodes.filter Node.isCall

/-- Visit of a node without children by `ast.Walk`: the visitor is called on
the node and, when it asks to descend, once more with nil. -/
def walkLeaf {σ : Type} (v : Option Node → σ → Bool × σ) (n : Node) (s : σ) : σ :=
  match v (some n) s with
  | (false, s1) => s1
  | (true, s1) => (v none s1).2

mutual
/-- Traversal `ast.Walk(inspector(f), node)` with the state the closure `f`
mutates passed explicitly: `f` is called on the node; when it returns true the
children are walked in order and `f` is called with nil. -/
def Walk {σ : Type} (v : Option Node → σ → Bool × σ) : Node → σ → σ
  | .Ident nm, s => walkLeaf v (.Ident nm) s
  | .SelectorExpr x sel, s =>
      match v (some (.SelectorExpr x sel)) s with
      | (false, s1) => s1
      | (true, s1) => (v none (walkLeaf v (.Ident sel) (Walk v x s1))).2
  | .StarExpr x, s =>
      match v (some (.StarExpr x)) s with
      | (false, s1) => s1
      | (true, s1) => (v none (Walk v x s1)).2
  | .CallExpr f args, s =>
      match v (some (.CallExpr f args)) s with
      | (false, s1) => s1
      | (true, s1) => (v none (walkList v args (Walk v f s1))).2
  | .Other k cs, s =>
      match v (some (.Other k cs)) s with
      | (false, s1) => s1
      | (true, s1) => (v none (walkList v cs s1)).2
/-- Walk of a list of nodes, in order. -/
def walkList {σ : Type} (v : Option Node → σ → Bool × σ) : List Node → σ → σ
  | [], s => s
  | n :: ns, s => walkList v ns (Walk v n s)
end

/-- `ast.Inspect(node, f)`. -/
def Inspect {σ : Type} (node : Node) (f : Option Node → σ → Bool × σ) (s : σ) : σ :=
  Walk f node s

/-! ## Call resolver (main.go lines 79-174) -/

/-- `exprToString`: an identifier gives its name, a selector the text of its
operand, a dot and the selected name, anything else the empty string. -/
def exprToString : Node → String
  | .Ident nm => nm
  | .SelectorExpr x sel => exprToString x ++ "." ++ sel
  | _ => ""

/-- `parseCallExpr(call, pkg, funcDecls)`: the type switch on `call.Fun`. -/
def parseCallExpr (call : Node) (pkg : String) (funcDecls : GoMap String FuncDecl) :
    Function :=
  match call with
  | .CallExpr (.Ident nm) _ =>
      if nm ∈ funcDecls.keys then { Package := pkg, Name := nm, Receiver := "" }
      else Function.zero
  | .CallExpr (.SelectorExpr (.Ident ident) sel) _ =>
      if sel ∈ funcDecls.keys then { Package := pkg, Receiver := ident, Name := sel }
      else Function.zero
  | _ => Function.zero

/-- The function literal handed to `ast.Inspect` in `analyzeFunction`
(lines 125-139), with the graph it mutates passed explicitly. -/
def inspectCall (fromNode : Function) (pkg : String) (funcDecls : GoMap String FuncDecl)
    (n : Option Node) (graph : CallGraph) : Bool × CallGraph :=
  match n with
  | some (.CallExpr f args) =>
      let toNode := parseCallExpr (.CallExpr f args) pkg funcDecls
      if toNode.Name ≠ "" then
        (true, (graph.AddNode toNode).AddEdge fromNode toNode)
      else (true, graph)
  | _ => (true, graph)

/-- The identity `fromNode` built at the start of `analyzeFunction`
(lines 109-121). Indexing `fn.Recv.List[0]` panics on an empty list. -/
def callerIdentity (fn : FuncDecl) (pkg : String) : Except Panic Function :=
  match fn.Recv with
  | none => .ok { Package := pkg, Name := fn.Name, Receiver := "" }
  | some [] => .error .indexOutOfRange
  | some (field :: _) =>
      match field.Type_ with
      | .StarExpr x =>
          .ok { Package := pkg, Name := fn.Name, Receiver := "*" ++ exprToString x }
      | recv => .ok { Package := pkg, Name := fn.Name, Receiver := exprToString recv }

/-- `analyzeFunction(fn, pkg, funcDecls, graph)`. With a nil `fn.Body`,
`ast.Inspect` calls the visitor on the typed nil and then dereferences it. -/
def analyzeFunction (fn : FuncDecl) (pkg : String) (funcDecls : GoMap String FuncDecl)
    (graph : CallGraph) : Except Panic CallGraph :=
  match callerIdentity fn pkg with
  | .error e => .error e
  | .ok fromNode =>
      let graph1 := graph.AddNode fromNode
      match fn.Body with
      | none => .error .nilDereference
      | some body =>
          .ok (Inspect (.Other .BlockStmt body) (inspectCall fromNode pkg funcDecls) graph1)

/-- The map `funcDecls` built by the first loop of `processFile`
(lines 91-97). -/
def collectFuncDecls (decls : List Decl) : GoMap String FuncDecl :=
  decls.foldl
    (fun m decl =>
      match decl with
      | .FuncDecl fn => m.insert fn.Name fn
      | .GenDecl => m)
    ∅

/-- The second loop of `processFile` (lines 100-104). -/
def analyzeDecls (decls : List Decl) (pkg : String) (funcDecls : GoMap String FuncDecl)
    (graph : CallGraph) : Except Panic CallGraph :=
  decls.foldlM
    (fun g decl =>
      match decl with
      | .FuncDecl fn => analyzeFunction fn pkg funcDecls g
      | .GenDecl => .ok g)
    graph

/-- `processFile(path, graph)`, given the outcome of `parser.ParseFile` on the
file: a parse error is reported and the graph is left as it is. -/
def processFile (parsed : Except String File) (graph : CallGraph) :
    Except Panic CallGraph :=
  match parsed with
  | .error _ => .ok graph
  | .ok file => analyzeDecls file.Decls file.Name (collectFuncDecls file.Decls) graph

/-- The loop of `main`: every file is processed, in the order given, into a
graph that starts as `NewCallGraph()`. -/
def processFiles (files : List (Except String File)) : Except Panic CallGraph :=
  files.foldlM (fun g parsed => processFile parsed g) NewCallGraph

/-- Names of the functions and methods declared at the top level of a file. -/
def declaredNames (file : File) : List String :=
  file.Decls.filterMap
    (fun decl =>
      match decl with
      | .FuncDecl fn => some fn.Name
      | .GenDecl => none)

/-- Names of the parameters of a function declaration. -/
def paramNames (fn : FuncDecl) : List String :=
  fn.Params.flatMap (fun field => field.Names)

/-- The identifier `s1`, or the selector chain `s1.s2. ... .sn` over it:
selector expressions nested to the left. -/
def selectorChain (s1 : String) (rest : List String) : Node :=
  rest.foldl (fun x sel => .SelectorExpr x sel) (.Ident s1)

/-- The identities the calls in a body resolve to: `parseCallExpr` of every
call expression of the body subtree, those with an empty `Name` left out. -/
def resolvedCallees (body : List Node) (pkg : String) (funcDecls : GoMap String FuncDecl) :
    List Function :=
  ((callExprs (.Other .BlockStmt body)).map (fun c => parseCallExpr c pkg funcDecls)).filter
    (fun b => b.Name ≠ "")

/-- The nodes one declaration contributes: its caller identity and its
resolved callees (nothing when `analyzeFunction` panics on it). -/
def declNodes (fn : FuncDecl) (pkg : String) (funcDecls : GoMap String FuncDecl) :
    List Function :=
  match callerIdentity fn pkg, fn.Body with
  | .ok fromNode, some body => fromNode :: resolvedCallees body pkg funcDecls
  | _, _ => []

/-- The edges one declaration contributes: from its caller identity to each
resolved callee. -/
def declEdges (fn : FuncDecl) (pkg : String) (funcDecls : GoMap String FuncDecl) :
    List (Function × Function) :=
  match callerIdentity fn pkg, fn.Body with
  | .ok fromNode, some body =>
      (resolvedCallees body pkg funcDecls).map (fun b => (fromNode, b))
  | _, _ => []

/-- The nodes one file contributes (none when it failed to parse). -/
def fileNodes (parsed : Except String File) : List Function :=
  match parsed with
  | .error _ => []
  | .ok file =>
      file.Decls.flatMap
        (fun decl =>
          match decl with
          | .FuncDecl fn => declNodes fn file.Name (collectFuncDecls file.Decls)
          | .GenDecl => [])

/-- The edges one file contributes (none when it failed to parse). -/
def fileEdges (parsed : Except String File) : List (Function × Function) :=
  match parsed with
  | .error _ => []
  | .ok file =>
      file.Decls.flatMap
        (fun decl =>
          match decl with
          | .FuncDecl fn => declEdges fn file.Name (collectFuncDecls file.Decls)
          | .GenDecl => [])

/-! ## Graph exporter (main.go lines 176-208) -/

/-- First byte of the UTF-8 encoding of a character: what indexing a Go
string at 0 yields when the string starts with that character. -/
def utf8FirstByte (c : Char) : Nat :=
  if c.toNat < 0x80 then c.toNat
  else if c.toNat < 0x800 then 0xC0 + c.toNat / 0x40
  else if c.toNat < 0x10000 then 0xE0 + c.toNat / 0x1000
  else 0xF0 + c.toNat / 0x40000

/-- `unicode.IsUpper(r)` for a rune below 256, from the Latin-1 table of
package `unicode`: the letters `A`-`Z`, U+00C0-U+00D6 and U+00D8-U+00DE. -/
def isUpperLatin1 (r : Nat) : Bool :=
  (0x41 ≤ r && r ≤ 0x5A) || (0xC0 ≤ r && r ≤ 0xD6) || (0xD8 ≤ r && r ≤ 0xDE)

/-- The fill colour of a node (lines 190-193):
`len(node.Name) > 0 && unicode.IsUpper(rune(node.Name[0]))`, where
`node.Name[0]` is the first byte of the string. -/
def fillColor (node : Function) : String :=
  match node.Name.data with
  | [] => "orange"
  | c :: _ => if isUpperLatin1 (utf8FirstByte c) then "lightcoral" else "orange"

/-- The label of a node (lines 184-187). -/
def nodeLabel (node : Function) : String :=
  if node.Receiver ≠ "" then "(" ++ node.Receiver ++ ")." ++ node.Name else node.Name

/-- The key of a node: the struct printed with `%s`, its fields in
declaration order between braces, separated by one space. -/
def nodeKey (node : Function) : String :=
  "\x7b" ++ node.Name ++ " " ++ node.Receiver ++ " " ++ node.Package ++ "\x7d"

/-- The line printed for a node (line 195), without the final newline. -/
def nodeStatement (node : Function) : String :=
  "  \"" ++ nodeKey node ++ "\" [label=\"" ++ nodeLabel node ++ "\", fillcolor=\"" ++
    fillColor node ++ "\"];"

/-- The line printed for an edge (line 203), without the final newline. -/
def edgeStatement (from_ to_ : Function) : String :=
  "  \"" ++ nodeKey from_ ++ "\" -> \"" ++ nodeKey to_ ++ "\";"

/-- `generateDot(graph)`: the lines written to standard output, in order, each
without its final newline. The `range` loops run over the entries of the maps. -/
def generateDot (graph : CallGraph) : List String :=
  let out0 : List String :=
    ["digraph G \x7b", "  node [shape=box, style=filled];", "  edge [arrowsize=0.8];", ""]
  let out1 := graph.Nodes.entries.foldl (fun out e => out ++ [nodeStatement e.1]) out0
  let out2 := out1 ++ [""]
  let out3 := graph.Edges.entries.foldl
    (fun out e => e.2.entries.foldl (fun acc e2 => acc ++ [edgeStatement e.1 e2.1]) out)
    out2
  out3 ++ ["\x7d"]

/-! ## Example inputs -/

/-- The call `B()`. -/
def callB : Node := .CallExpr (.Ident "B") []

/-- The call `t.Bar()`. -/
def callTBar : Node := .CallExpr (.SelectorExpr (.Ident "t") "Bar") []

/-- The call `strings.ToUpper("x")`. -/
def callToUpper : Node :=
  .CallExpr (.SelectorExpr (.Ident "strings") "ToUpper") [.Other .BasicLit []]

/-- Package `p` with `func A() { B() }` and `func B() {}`. -/
def fileAB : File :=
  { Name := "p",
    Decls := [
      .FuncDecl { Recv := none, Name := "A", Params := [],
                  Body := some [.Other .ExprStmt [callB]] },
      .FuncDecl { Recv := none, Name := "B", Params := [], Body := some [] } ] }

/-- The graph of `fileAB`: nodes `A` and `B`, edge `A -> B`. -/
def graphAB : CallGraph :=
  (((NewCallGraph.AddNode ⟨"A", "", "p"⟩).AddNode ⟨"B", "", "p"⟩).AddEdge
    ⟨"A", "", "p"⟩ ⟨"B", "", "p"⟩).AddNode ⟨"B", "", "p"⟩

/-- Package `p` with `func (t *T) Foo() { t.Bar() }` and `func (t T) Bar() {}`. -/
def fileFooBar : File :=
  { Name := "p",
    Decls := [
      .FuncDecl { Recv := some [{ Names := ["t"], Type_ := .StarExpr (.Ident "T") }],
                  Name := "Foo", Params := [],
                  Body := some [.Other .ExprStmt [callTBar]] },
      .FuncDecl { Recv := some [{ Names := ["t"], Type_ := .Ident "T" }],
                  Name := "Bar", Params := [], Body := some [] } ] }

/-- Package `p` with an import and `func F() { strings.ToUpper("x") }`. -/
def fileToUpper : File :=
  { Name := "p",
    Decls := [
      .GenDecl,
      .FuncDecl { Recv := none, Name := "F", Params := [],
                  Body := some [.Other .ExprStmt [callToUpper]] } ] }

/-- The graph of `fileToUpper`: the lone node `F`. -/
def graphToUpper : CallGraph :=
  NewCallGraph.AddNode ⟨"F", "", "p"⟩

/-- The declaration `func A(B func()) { B() }`: the call goes through the
parameter `B`. -/
def fnShadow : FuncDecl :=
  { Recv := none, Name := "A",
    Params := [{ Names := ["B"], Type_ := .Other .FuncType [.Other .FieldList []] }],
    Body := some [.Other .ExprStmt [callB]] }

/-- Package `p` with `func B() {}` and `fnShadow`. -/
def fileShadow : File :=
  { Name := "p",
    Decls := [
      .FuncDecl { Recv := none, Name := "B", Params := [], Body := some [] },
      .FuncDecl fnShadow ] }

/-- The graph `analyzeFunction` builds for `fnShadow` from the empty graph:
nodes `A` and `B`, edge `A -> B`. -/
def graphShadow : CallGraph :=
  ((NewCallGraph.AddNode ⟨"A", "", "p"⟩).AddNode ⟨"B", "", "p"⟩).AddEdge
    ⟨"A", "", "p"⟩ ⟨"B", "", "p"⟩

/-- The call `f()`. -/
def callF : Node := .CallExpr (.Ident "f") []

/-- The declaration `func G(f func()) { f() }`. -/
def fnParamCall : FuncDecl :=
  { Recv := none, Name := "G",
    Params := [{ Names := ["f"], Type_ := .Other .FuncType [.Other .FieldList []] }],
    Body := some [.Other .ExprStmt [callF]] }

/-- Package `p` with `fnParamCall` and `func H() {}`. -/
def fileParamCall : File :=
  { Name := "p",
    Decls := [
      .FuncDecl fnParamCall,
      .FuncDecl { Recv := none, Name := "H", Params := [], Body := some [] } ] }

/-- Body of `fnNested`: `B(C())`, then `func() { D() }()`, then the block
`{ x.E() }`. -/
def bodyNested : List Node :=
  [ .Other .ExprStmt [.CallExpr (.Ident "B") [.CallExpr (.Ident "C") []]],
    .Other .ExprStmt
      [.CallExpr
        (.Other .FuncLit
          [.Other .FuncType [.Other .FieldList []],
           .Other .BlockStmt [.Other .ExprStmt [.CallExpr (.Ident "D") []]]])
        []],
    .Other .BlockStmt
      [.Other .ExprStmt [.CallExpr (.SelectorExpr (.Ident "x") "E") []]] ]

/-- The declaration `func A() { B(C()); func() { D() }(); { x.E() } }`. -/
def fnNested : FuncDecl :=
  { Recv := none, Name := "A", Params := [], Body := some bodyNested }

/-- Package `p` with `fnNested` and `func B`, `func C`, `func D`,
`func (x X) E`, all with empty bodies. -/
def fileNested : File :=
  { Name := "p",
    Decls := [
      .FuncDecl fnNested,
      .FuncDecl { Recv := none, Name := "B", Params := [], Body := some [] },
      .FuncDecl { Recv := none, Name := "C", Params := [], Body := some [] },
      .FuncDecl { Recv := none, Name := "D", Params := [], Body := some [] },
      .FuncDecl { Recv := some [{ Names := ["x"], Type_ := .Ident "X" }],
                  Name := "E", Params := [], Body := some [] } ] }

/-- The declaration `func (t *T) Foo() { t.Bar() }`. -/
def fnFoo : FuncDecl :=
  { Recv := some [{ Names := ["t"], Type_ := .StarExpr (.Ident "T") }],
    Name := "Foo", Params := [],
    Body := some [.Other .ExprStmt [callTBar]] }

/-- The declaration `func F()`: no body. -/
def fnNoBody : FuncDecl :=
  { Recv := none, Name := "F", Params := [], Body := none }

/-- The declaration `func () F() {}`: a receiver clause with no entry. -/
def fnEmptyRecv : FuncDecl :=
  { Recv := some [], Name := "F", Params := [], Body := some [] }

/-- The declaration `func () F() { B() }`: a body with a call, and a receiver
clause with no entry. -/
def fnEmptyRecvCall : FuncDecl :=
  { Recv := some [], Name := "F", Params := [], Body := some [.Other .ExprStmt [callB]] }

/-- Package `p` with `func B() {}` and `func () F() { B() }`. -/
def fileEmptyRecvCall : File :=
  { Name := "p",
    Decls := [
      .FuncDecl { Recv := none, Name := "B", Params := [], Body := some [] },
      .FuncDecl fnEmptyRecvCall ] }

/-- The declaration `func init() { B() }`. -/
def fnInitCalls : FuncDecl :=
  { Recv := none, Name := "init", Params := [], Body := some [.Other .ExprStmt [callB]] }

/-- The declaration `func init() {}`. -/
def fnInitEmpty : FuncDecl :=
  { Recv := none, Name := "init", Params := [], Body := some [] }

/-- The declaration `func B() {}`. -/
def fnB : FuncDecl :=
  { Recv := none, Name := "B", Params := [], Body := some [] }

/-- Package `p` with `func init() { B() }`, `func init() {}` and
`func B() {}`. -/
def fileTwoInit : File :=
  { Name := "p", Decls := [.FuncDecl fnInitCalls, .FuncDecl fnInitEmpty, .FuncDecl fnB] }

/-- Package `p` with `func A() { B() }`, `func B() {}` and the declaration
without body `func F()`. -/
def fileNoBody : File :=
  { Name := "p", Decls := fileAB.Decls ++ [.FuncDecl fnNoBody] }

/-- The graph of `fileTwoInit`: nodes `init` and `B`, edge `init -> B`. -/
def graphTwoInit : CallGraph :=
  (((((NewCallGraph.AddNode ⟨"init", "", "p"⟩).AddNode ⟨"B", "", "p"⟩).AddEdge
    ⟨"init", "", "p"⟩ ⟨"B", "", "p"⟩).AddNode ⟨"init", "", "p"⟩).AddNode ⟨"B", "", "p"⟩)

/-- The graph of `fileFooBar` processed after `fileAB`. -/
def graphABFooBar : CallGraph :=
  (((graphAB.AddNode ⟨"Foo", "*T", "p"⟩).AddNode ⟨"Bar", "t", "p"⟩).AddEdge
    ⟨"Foo", "*T", "p"⟩ ⟨"Bar", "t", "p"⟩).AddNode ⟨"Bar", "T", "p"⟩

/-! ## Graph membership after an insertion -/

theorem hasNode_AddNode (cg : CallGraph) (f x : Function) :
    (cg.AddNode f).hasNode x ↔ x = f ∨ cg.hasNode x := by
  unfold CallGraph.hasNode CallGraph.AddNode
  rw [← AList.mem_keys, ← AList.mem_keys, AList.mem_insert]

theorem hasNode_AddEdge (cg : CallGraph) (f t x : Function) :
    (cg.AddEdge f t).hasNode x ↔ cg.hasNode x := by
  unfold CallGraph.hasNode CallGraph.AddEdge
  split <;> rfl

theorem Nodes_AddEdge (cg : CallGraph) (f t : Function) :
    (cg.AddEdge f t).Nodes = cg.Nodes := by
  unfold CallGraph.AddEdge
  split <;> rfl

theorem hasEdge_AddNode (cg : CallGraph) (f a b : Function) :
    (cg.AddNode f).hasEdge a b ↔ cg.hasEdge a b := Iff.rfl

theorem hasEdgeKey_AddNode (cg : CallGraph) (f a : Function) :
    (cg.AddNode f).hasEdgeKey a ↔ cg.hasEdgeKey a := Iff.rfl

theorem hasEdgeKey_AddEdge (cg : CallGraph) (f t a : Function) :
    (cg.AddEdge f t).hasEdgeKey a ↔ a = f ∨ cg.hasEdgeKey a := by
  unfold CallGraph.hasEdgeKey CallGraph.AddEdge
  split <;> simp only [← AList.mem_keys, AList.mem_insert]

theorem hasEdge_AddEdge (cg : CallGraph) (f t a b : Function) :
    (cg.AddEdge f t).hasEdge a b ↔ (a = f ∧ b = t) ∨ cg.hasEdge a b := by
  unfold CallGraph.hasEdge CallGraph.AddEdge
  by_cases haf : a = f
  · subst haf
    cases hl : cg.Edges.lookup a with
    | none =>
        simp [AList.lookup_insert, ← AList.mem_keys, AList.mem_insert, -AList.insert_empty]
    | some tos =>
        simp [AList.lookup_insert, ← AList.mem_keys, AList.mem_insert]
  · cases hl : cg.Edges.lookup f with
    | none => simp [AList.lookup_insert_ne haf, haf]
    | some tos => simp [AList.lookup_insert_ne haf, haf]

theorem hasEdgeKey_of_hasEdge (cg : CallGraph) (a b : Function) (h : cg.hasEdge a b) :
    cg.hasEdgeKey a := by
  obtain ⟨tos, htos, _⟩ := h
  unfold CallGraph.hasEdgeKey
  rw [← AList.mem_keys, ← AList.lookup_isSome]
  rw [Option.mem_def] at htos
  simp [htos]

theorem mem_nodeList (cg : CallGraph) (x : Function) :
    x ∈ cg.nodeList ↔ cg.hasNode x := Iff.rfl

theorem nodeList_nodup (cg : CallGraph) : cg.nodeList.Nodup :=
  cg.Nodes.keys_nodup

theorem mem_edgeList (cg : CallGraph) (a b : Function) :
    (a, b) ∈ cg.edgeList ↔ cg.hasEdge a b := by
  unfold CallGraph.edgeList CallGraph.hasEdge
  constructor
  · intro h
    obtain ⟨e, he, hb⟩ := List.mem_flatMap.1 h
    obtain ⟨b1, hb1, heq⟩ := List.mem_map.1 hb
    obtain ⟨k, tos⟩ := e
    simp only [Prod.mk.injEq] at heq
    obtain ⟨rfl, rfl⟩ := heq
    exact ⟨tos, AList.mem_lookup_iff.2 he, hb1⟩
  · rintro ⟨tos, htos, hb⟩
    exact List.mem_flatMap.2 ⟨⟨a, tos⟩, AList.mem_lookup_iff.1 htos, List.mem_map.2 ⟨b, hb, rfl⟩⟩

theorem edgeList_nodup (cg : CallGraph) : cg.edgeList.Nodup := by
  unfold CallGraph.edgeList
  rw [List.nodup_flatMap]
  constructor
  · intro e _
    exact e.2.keys_nodup.map (fun b1 b2 h => (Prod.mk.inj h).2)
  · have hp := List.nodupKeys_iff_pairwise.1 cg.Edges.nodupKeys
    refine hp.imp ?_
    intro e1 e2 hne
    show List.Disjoint _ _
    intro p h1 h2
    obtain ⟨b1, _, rfl⟩ := List.mem_map.1 h1
    obtain ⟨b2, _, heq⟩ := List.mem_map.1 h2
    exact hne (Prod.mk.inj heq).1.symm

/-! ## The traversal visits every node of the subtree -/

theorem walkLeaf_eq {σ : Type} (v : Option Node → σ → Bool × σ)
    (hgo : ∀ n s, (v n s).1 = true) (hnil : ∀ s, (v none s).2 = s) (n : Node) (s : σ) :
    walkLeaf v n s = (v (some n) s).2 := by
  unfold walkLeaf
  have h := hgo (some n) s
  generalize v (some n) s = r at h
  obtain ⟨b, s1⟩ := r
  simp only at h
  subst h
  simp [hnil]

mutual
theorem Walk_eq_foldl {σ : Type} (v : Option Node → σ → Bool × σ)
    (hgo : ∀ n s, (v n s).1 = true) (hnil : ∀ s, (v none s).2 = s) :
    ∀ (n : Node) (s : σ),
      Walk v n s = n.subnodes.foldl (fun s1 m => (v (some m) s1).2) s
  | .Ident nm, s => by
      rw [Walk, walkLeaf_eq v hgo hnil, Node.subnodes]
      rfl
  | .SelectorExpr x sel, s => by
      rw [Walk, Node.subnodes]
      have h := hgo (some (.SelectorExpr x sel)) s
      simp only [List.foldl_cons, List.foldl_append, List.foldl_nil]
      generalize v (some (.SelectorExpr x sel)) s = r at h
      obtain ⟨b, s1⟩ := r
      simp only at h
      subst h
      simp only [hnil, walkLeaf_eq v hgo hnil, Walk_eq_foldl v hgo hnil x]
  | .StarExpr x, s => by
      rw [Walk, Node.subnodes]
      have h := hgo (some (.StarExpr x)) s
      simp only [List.foldl_cons]
      generalize v (some (.StarExpr x)) s = r at h
      obtain ⟨b, s1⟩ := r
      simp only at h
      subst h
      simp only [hnil, Walk_eq_foldl v hgo hnil x]
  | .CallExpr f args, s => by
      rw [Walk, Node.subnodes]
      have h := hgo (some (.CallExpr f args)) s
      simp only [List.foldl_cons, List.foldl_append]
      generalize v (some (.CallExpr f args)) s = r at h
      obtain ⟨b, s1⟩ := r
      simp only at h
      subst h
      simp only [hnil, Walk_eq_foldl v hgo hnil f, walkList_eq_foldl v hgo hnil args]
  | .Other k cs, s => by
      rw [Walk, Node.subnodes]
      have h := hgo (some (.Other k cs)) s
      simp only [List.foldl_cons]
      generalize v (some (.Other k cs)) s = r at h
      obtain ⟨b, s1⟩ := r
      simp only at h
      subst h
      simp only [hnil, walkList_eq_foldl v hgo hnil cs]
theorem walkList_eq_foldl {σ : Type} (v : Option Node → σ → Bool × σ)
    (hgo : ∀ n s, (v n s).1 = true) (hnil : ∀ s, (v none s).2 = s) :
    ∀ (l : List Node) (s : σ),
      walkList v l s = (Node.subnodesList l).foldl (fun s1 m => (v (some m) s1).2) s
  | [], s => by
      rw [walkList, Node.subnodesList]
      rfl
  | n :: ns, s => by
      rw [walkList, Node.subnodesList, List.foldl_append,
        Walk_eq_foldl v hgo hnil n, walkList_eq_foldl v hgo hnil ns]
end

/-! ## What `analyzeFunction` does to the graph -/

theorem inspectCall_fst (fromNode : Function) (pkg : String) (funcDecls : GoMap String FuncDecl)
    (n : Option Node) (g : CallGraph) : (inspectCall fromNode pkg funcDecls n g).1 = true := by
  unfold inspectCall
  split
  · dsimp only
    split <;> rfl
  · rfl

theorem inspectCall_nil (fromNode : Function) (pkg : String) (funcDecls : GoMap String FuncDecl)
    (g : CallGraph) : (inspectCall fromNode pkg funcDecls none g).2 = g := rfl

theorem inspectCall_of_not_isCall (fromNode : Function) (pkg : String)
    (funcDecls : GoMap String FuncDecl) (m : Node) (g : CallGraph) (h : m.isCall = false) :
    (inspectCall fromNode pkg funcDecls (some m) g).2 = g := by
  cases m <;> first | rfl | simp [Node.isCall] at h

theorem inspectCall_of_isCall (fromNode : Function) (pkg : String)
    (funcDecls : GoMap String FuncDecl) (m : Node) (g : CallGraph) (h : m.isCall = true) :
    (inspectCall fromNode pkg funcDecls (some m) g).2 =
      if (parseCallExpr m pkg funcDecls).Name ≠ "" then
        (g.AddNode (parseCallExpr m pkg funcDecls)).AddEdge fromNode (parseCallExpr m pkg funcDecls)
      else g := by
  cases m with
  | CallExpr f args =>
      unfold inspectCall
      simp only
      split <;> rfl
  | _ => simp [Node.isCall] at h

theorem inspectCall_hasEdge (fromNode : Function) (pkg : String)
    (funcDecls : GoMap String FuncDecl) (m : Node) (g : CallGraph) (a b : Function) :
    (inspectCall fromNode pkg funcDecls (some m) g).2.hasEdge a b ↔
      g.hasEdge a b ∨
        (a = fromNode ∧ m.isCall = true ∧ parseCallExpr m pkg funcDecls = b ∧ b.Name ≠ "") := by
  cases hm : m.isCall with
  | false => simp [inspectCall_of_not_isCall _ _ _ _ _ hm]
  | true =>
      rw [inspectCall_of_isCall _ _ _ _ _ hm]
      by_cases hn : (parseCallExpr m pkg funcDecls).Name ≠ ""
      · rw [if_pos hn, hasEdge_AddEdge, hasEdge_AddNode]
        constructor
        · rintro (⟨rfl, rfl⟩ | h)
          · exact Or.inr ⟨rfl, rfl, rfl, hn⟩
          · exact Or.inl h
        · rintro (h | ⟨rfl, _, rfl, _⟩)
          · exact Or.inr h
          · exact Or.inl ⟨rfl, rfl⟩
      · rw [if_neg hn]
        constructor
        · exact Or.inl
        · rintro (h | ⟨_, _, rfl, hb⟩)
          · exact h
          · exact absurd hb hn

theorem inspectCall_hasNode (fromNode : Function) (pkg : String)
    (funcDecls : GoMap String FuncDecl) (m : Node) (g : CallGraph) (x : Function) :
    (inspectCall fromNode pkg funcDecls (some m) g).2.hasNode x ↔
      g.hasNode x ∨ (m.isCall = true ∧ parseCallExpr m pkg funcDecls = x ∧ x.Name ≠ "") := by
  cases hm : m.isCall with
  | false => simp [inspectCall_of_not_isCall _ _ _ _ _ hm]
  | true =>
      rw [inspectCall_of_isCall _ _ _ _ _ hm]
      by_cases hn : (parseCallExpr m pkg funcDecls).Name ≠ ""
      · rw [if_pos hn, hasNode_AddEdge, hasNode_AddNode]
        constructor
        · rintro (rfl | h)
          · exact Or.inr ⟨rfl, rfl, hn⟩
          · exact Or.inl h
        · rintro (h | ⟨_, rfl, _⟩)
          · exact Or.inr h
          · exact Or.inl rfl
      · rw [if_neg hn]
        constructor
        · exact Or.inl
        · rintro (h | ⟨_, rfl, hb⟩)
          · exact h
          · exact absurd hb hn

theorem foldl_inspectCall_hasEdge (fromNode : Function) (pkg : String)
    (funcDecls : GoMap String FuncDecl) (a b : Function) :
    ∀ (l : List Node) (g : CallGraph),
      (l.foldl (fun s1 m => (inspectCall fromNode pkg funcDecls (some m) s1).2) g).hasEdge a b ↔
        g.hasEdge a b ∨
          (a = fromNode ∧
            ∃ c ∈ l.filter Node.isCall, parseCallExpr c pkg funcDecls = b ∧ b.Name ≠ "")
  | [], g => by simp
  | m :: l, g => by
      rw [List.foldl_cons, foldl_inspectCall_hasEdge fromNode pkg funcDecls a b l,
        inspectCall_hasEdge]
      simp only [List.mem_filter, List.mem_cons]
      constructor
      · rintro ((h | ⟨ha, hm, hp, hb⟩) | ⟨ha, c, ⟨hc, hcc⟩, hp, hb⟩)
        · exact Or.inl h
        · exact Or.inr ⟨ha, m, ⟨Or.inl rfl, hm⟩, hp, hb⟩
        · exact Or.inr ⟨ha, c, ⟨Or.inr hc, hcc⟩, hp, hb⟩
      · rintro (h | ⟨ha, c, ⟨rfl | hc, hcc⟩, hp, hb⟩)
        · exact Or.inl (Or.inl h)
        · exact Or.inl (Or.inr ⟨ha, hcc, hp, hb⟩)
        · exact Or.inr ⟨ha, c, ⟨hc, hcc⟩, hp, hb⟩

theorem foldl_inspectCall_hasNode (fromNode : Function) (pkg : String)
    (funcDecls : GoMap String FuncDecl) (x : Function) :
    ∀ (l : List Node) (g : CallGraph),
      (l.foldl (fun s1 m => (inspectCall fromNode pkg funcDecls (some m) s1).2) g).hasNode x ↔
        g.hasNode x ∨
          ∃ c ∈ l.filter Node.isCall, parseCallExpr c pkg funcDecls = x ∧ x.Name ≠ ""
  | [], g => by simp
  | m :: l, g => by
      rw [List.foldl_cons, foldl_inspectCall_hasNode fromNode pkg funcDecls x l,
        inspectCall_hasNode]
      simp only [List.mem_filter, List.mem_cons]
      constructor
      · rintro ((h | ⟨hm, hp, hb⟩) | ⟨c, ⟨hc, hcc⟩, hp, hb⟩)
        · exact Or.inl h
        · exact Or.inr ⟨m, ⟨Or.inl rfl, hm⟩, hp, hb⟩
        · exact Or.inr ⟨c, ⟨Or.inr hc, hcc⟩, hp, hb⟩
      · rintro (h | ⟨c, ⟨rfl | hc, hcc⟩, hp, hb⟩)
        · exact Or.inl (Or.inl h)
        · exact Or.inl (Or.inr ⟨hcc, hp, hb⟩)
        · exact Or.inr ⟨c, ⟨hc, hcc⟩, hp, hb⟩

/-- The graph `analyzeFunction` returns, as a fold over the nodes of the body. -/
theorem analyzeFunction_eq (fn : FuncDecl) (pkg : String) (funcDecls : GoMap String FuncDecl)
    (g : CallGraph) (fromNode : Function) (body : List Node)
    (hfrom : callerIdentity fn pkg = .ok fromNode) (hbody : fn.Body = some body) :
    analyzeFunction fn pkg funcDecls g =
      .ok ((Node.Other .BlockStmt body).subnodes.foldl
        (fun s1 m => (inspectCall fromNode pkg funcDecls (some m) s1).2)
        (g.AddNode fromNode)) := by
  unfold analyzeFunction Inspect
  rw [hfrom]
  simp only [hbody]
  rw [Walk_eq_foldl _ (inspectCall_fst fromNode pkg funcDecls)
    (inspectCall_nil fromNode pkg funcDecls)]

/-- When `analyzeFunction` returns, the caller identity was built and the
declaration has a body. -/
theorem analyzeFunction_ok_inv (fn : FuncDecl) (pkg : String)
    (funcDecls : GoMap String FuncDecl) (g g1 : CallGraph)
    (h : analyzeFunction fn pkg funcDecls g = .ok g1) :
    ∃ fromNode body, callerIdentity fn pkg = .ok fromNode ∧ fn.Body = some body := by
  unfold analyzeFunction at h
  cases hc : callerIdentity fn pkg with
  | error e => rw [hc] at h; cases h
  | ok fromNode =>
      cases hb : fn.Body with
      | none => rw [hc] at h; simp only [hb] at h; cases h
      | some body => exact ⟨fromNode, body, rfl, rfl⟩

theorem callerIdentity_ok_of_recv (fn : FuncDecl) (pkg : String) (h : fn.Recv ≠ some []) :
    ∃ fromNode, callerIdentity fn pkg = .ok fromNode := by
  unfold callerIdentity
  cases hr : fn.Recv with
  | none => exact ⟨_, rfl⟩
  | some fields =>
      cases fields with
      | nil => exact absurd hr h
      | cons field rest =>
          simp only
          split <;> exact ⟨_, rfl⟩

theorem callerIdentity_fields (fn : FuncDecl) (pkg : String) (fromNode : Function)
    (h : callerIdentity fn pkg = .ok fromNode) :
    fromNode.Name = fn.Name ∧ fromNode.Package = pkg := by
  unfold callerIdentity at h
  split at h
  · cases h; exact ⟨rfl, rfl⟩
  · cases h
  · split at h <;> (cases h; exact ⟨rfl, rfl⟩)

theorem parseCallExpr_resolved (c : Node) (pkg : String) (funcDecls : GoMap String FuncDecl)
    (h : (parseCallExpr c pkg funcDecls).Name ≠ "") :
    (parseCallExpr c pkg funcDecls).Name ∈ funcDecls.keys ∧
      (parseCallExpr c pkg funcDecls).Package = pkg := by
  unfold parseCallExpr at h ⊢
  split
  · split
    · rename_i hmem; exact ⟨hmem, rfl⟩
    · rename_i hmem; simp [hmem, Function.zero] at h
  · split
    · rename_i hmem; exact ⟨hmem, rfl⟩
    · rename_i hmem; simp [hmem, Function.zero] at h
  · rename_i h1 h2
    exfalso
    revert h
    split
    · exact absurd rfl (h1 _ _)
    · exact absurd rfl (h2 _ _ _)
    · intro h; exact h rfl

theorem inspectCall_hasEdgeKey (fromNode : Function) (pkg : String)
    (funcDecls : GoMap String FuncDecl) (m : Node) (g : CallGraph) (a : Function)
    (h : (inspectCall fromNode pkg funcDecls (some m) g).2.hasEdgeKey a) :
    g.hasEdgeKey a ∨ a = fromNode := by
  cases hm : m.isCall with
  | false => rw [inspectCall_of_not_isCall _ _ _ _ _ hm] at h; exact Or.inl h
  | true =>
      rw [inspectCall_of_isCall _ _ _ _ _ hm] at h
      split at h
      · rw [hasEdgeKey_AddEdge, hasEdgeKey_AddNode] at h
        exact h.symm
      · exact Or.inl h

theorem foldl_inspectCall_hasEdgeKey (fromNode : Function) (pkg : String)
    (funcDecls : GoMap String FuncDecl) (a : Function) :
    ∀ (l : List Node) (g : CallGraph),
      (l.foldl (fun s1 m => (inspectCall fromNode pkg funcDecls (some m) s1).2) g).hasEdgeKey a →
        g.hasEdgeKey a ∨ a = fromNode
  | [], g => fun h => Or.inl h
  | m :: l, g => fun h => by
      rw [List.foldl_cons] at h
      rcases foldl_inspectCall_hasEdgeKey fromNode pkg funcDecls a l _ h with h1 | h1
      · exact inspectCall_hasEdgeKey fromNode pkg funcDecls m g a h1
      · exact Or.inr h1

/-- What a returning call of `analyzeFunction` has done: the caller identity
was built, the body is present, and the nodes, edge keys and edges of the
result are those of the argument plus the caller and the resolved calls of
the body. -/
theorem analyzeFunction_spec (fn : FuncDecl) (pkg : String)
    (funcDecls : GoMap String FuncDecl) (g g1 : CallGraph)
    (h : analyzeFunction fn pkg funcDecls g = .ok g1) :
    ∃ fromNode body, callerIdentity fn pkg = .ok fromNode ∧ fn.Body = some body ∧
      (∀ x, g1.hasNode x ↔
        g.hasNode x ∨ x = fromNode ∨
          ∃ c ∈ callExprs (.Other .BlockStmt body),
            parseCallExpr c pkg funcDecls = x ∧ x.Name ≠ "") ∧
      (∀ a b, g1.hasEdge a b ↔
        g.hasEdge a b ∨
          (a = fromNode ∧
            ∃ c ∈ callExprs (.Other .BlockStmt body),
              parseCallExpr c pkg funcDecls = b ∧ b.Name ≠ "")) ∧
      (∀ a, g1.hasEdgeKey a → g.hasEdgeKey a ∨ a = fromNode) := by
  obtain ⟨fromNode, body, hfrom, hbody⟩ := analyzeFunction_ok_inv fn pkg funcDecls g g1 h
  rw [analyzeFunction_eq fn pkg funcDecls g fromNode body hfrom hbody] at h
  injection h with h
  subst h
  refine ⟨fromNode, body, hfrom, hbody, ?_, ?_, ?_⟩
  · intro x
    rw [foldl_inspectCall_hasNode, hasNode_AddNode]
    unfold callExprs
    tauto
  · intro a b
    rw [foldl_inspectCall_hasEdge, hasEdge_AddNode]
    rfl
  · intro a ha
    have := foldl_inspectCall_hasEdgeKey fromNode pkg funcDecls a _ _ ha
    rwa [hasEdgeKey_AddNode] at this

/-! ## Folding over declarations and files -/

theorem foldlM_ok_invariant {α : Type} (P : CallGraph → Prop)
    (f : CallGraph → α → Except Panic CallGraph) :
    ∀ (l : List α) (g g1 : CallGraph),
      (∀ x ∈ l, ∀ s s1, P s → f s x = .ok s1 → P s1) →
        P g → l.foldlM f g = .ok g1 → P g1
  | [], g, g1 => fun _ hg h => by
      have : g = g1 := by simpa [List.foldlM, pure, Except.pure] using h
      exact this ▸ hg
  | x :: l, g, g1 => fun hstep hg h => by
      rw [List.foldlM_cons] at h
      cases hx : f g x with
      | error e => rw [hx] at h; cases h
      | ok s1 =>
          rw [hx] at h
          exact foldlM_ok_invariant P f l s1 g1
            (fun y hy => hstep y (List.mem_cons_of_mem _ hy))
            (hstep x (List.mem_cons_self _ _) g s1 hg hx) h

theorem foldl_collect_keys (nm : String) :
    ∀ (decls : List Decl) (m : GoMap String FuncDecl),
      nm ∈ (decls.foldl
          (fun (m : GoMap String FuncDecl) decl =>
            match decl with
            | .FuncDecl fn => m.insert fn.Name fn
            | .GenDecl => m) m).keys ↔
        nm ∈ m.keys ∨
          nm ∈ decls.filterMap
            (fun decl =>
              match decl with
              | .FuncDecl fn => some fn.Name
              | .GenDecl => none)
  | [], m => by simp
  | .GenDecl :: decls, m => by
      rw [List.foldl_cons, foldl_collect_keys nm decls]
      simp
  | .FuncDecl fn :: decls, m => by
      rw [List.foldl_cons, foldl_collect_keys nm decls]
      simp only [← AList.mem_keys, AList.mem_insert, List.filterMap_cons, List.mem_cons]
      tauto

/-- The lookup set of a file holds exactly the declared names. -/
theorem mem_collectFuncDecls (file : File) (nm : String) :
    nm ∈ (collectFuncDecls file.Decls).keys ↔ nm ∈ declaredNames file := by
  unfold collectFuncDecls declaredNames
  rw [foldl_collect_keys]
  simp

theorem mem_declaredNames_of_mem (file : File) (fn : FuncDecl)
    (h : Decl.FuncDecl fn ∈ file.Decls) : fn.Name ∈ declaredNames file := by
  unfold declaredNames
  exact List.mem_filterMap.2 ⟨_, h, rfl⟩

/-- An invariant kept by every returning `analyzeFunction` call on a
declaration of the file is kept by `processFile`. -/
theorem processFile_invariant (P : CallGraph → Prop) (parsed : Except String File)
    (g g1 : CallGraph)
    (hstep : ∀ file, parsed = .ok file → ∀ fn, Decl.FuncDecl fn ∈ file.Decls →
      ∀ s s1, P s →
        analyzeFunction fn file.Name (collectFuncDecls file.Decls) s = .ok s1 → P s1)
    (hg : P g) (h : processFile parsed g = .ok g1) : P g1 := by
  unfold processFile at h
  cases parsed with
  | error e =>
      injection h with h
      exact h ▸ hg
  | ok file =>
      unfold analyzeDecls at h
      refine foldlM_ok_invariant P _ file.Decls g g1 ?_ hg h
      intro decl hdecl s s1 hs hrun
      cases decl with
      | GenDecl =>
          injection hrun with hrun
          exact hrun ▸ hs
      | FuncDecl fn => exact hstep file rfl fn hdecl s s1 hs hrun

/-- An invariant of the empty graph kept by every returning `analyzeFunction`
call holds of the graph `processFiles` returns. -/
theorem processFiles_invariant (P : CallGraph → Prop) (files : List (Except String File))
    (g : CallGraph)
    (hstep : ∀ file, Except.ok file ∈ files → ∀ fn, Decl.FuncDecl fn ∈ file.Decls →
      ∀ s s1, P s →
        analyzeFunction fn file.Name (collectFuncDecls file.Decls) s = .ok s1 → P s1)
    (h0 : P NewCallGraph) (h : processFiles files = .ok g) : P g := by
  unfold processFiles at h
  refine foldlM_ok_invariant P _ files NewCallGraph g ?_ h0 h
  intro parsed hparsed s s1 hs hrun
  refine processFile_invariant P parsed s s1 ?_ hs hrun
  intro file hfile
  subst hfile
  exact hstep file hparsed

theorem not_hasNode_NewCallGraph (x : Function) : ¬ NewCallGraph.hasNode x := by
  unfold CallGraph.hasNode NewCallGraph
  simp

theorem not_hasEdgeKey_NewCallGraph (a : Function) : ¬ NewCallGraph.hasEdgeKey a := by
  unfold CallGraph.hasEdgeKey NewCallGraph
  simp

theorem not_hasEdge_NewCallGraph (a b : Function) : ¬ NewCallGraph.hasEdge a b := fun h =>
  not_hasEdgeKey_NewCallGraph a (hasEdgeKey_of_hasEdge _ a b h)

/-! ## The graph operations -/

/-- C1: node closure. In the graph accumulated from `NewCallGraph()` by
processing any sequence of files, every key of `Edges` is a node, and for
every edge `a -> b` both `a` and `b` are nodes. -/
theorem C1_node_closure (files : List (Except String File)) (g : CallGraph)
    (h : processFiles files = .ok g) :
    (∀ a, g.hasEdgeKey a → g.hasNode a) ∧
    (∀ a b, g.hasEdge a b → g.hasNode a ∧ g.hasNode b) := by
  refine processFiles_invariant
    (fun s => (∀ a, s.hasEdgeKey a → s.hasNode a) ∧
      (∀ a b, s.hasEdge a b → s.hasNode a ∧ s.hasNode b))
    files g ?_ ?_ h
  · intro file _ fn _ s s1 hs hrun
    obtain ⟨fromNode, body, _, _, hnode, hedge, hkey⟩ :=
      analyzeFunction_spec fn file.Name _ s s1 hrun
    constructor
    · intro a ha
      rcases hkey a ha with h1 | h1
      · exact (hnode a).2 (Or.inl (hs.1 a h1))
      · exact (hnode a).2 (Or.inr (Or.inl h1))
    · intro a b hab
      rcases (hedge a b).1 hab with h1 | ⟨ha, c, hc, hp, hb⟩
      · exact ⟨(hnode a).2 (Or.inl (hs.2 a b h1).1), (hnode b).2 (Or.inl (hs.2 a b h1).2)⟩
      · exact ⟨(hnode a).2 (Or.inr (Or.inl ha)),
          (hnode b).2 (Or.inr (Or.inr ⟨c, hc, hp, hb⟩))⟩
  · exact ⟨fun a ha => absurd ha (not_hasEdgeKey_NewCallGraph a),
      fun a b hab => absurd hab (not_hasEdge_NewCallGraph a b)⟩

/-- C1 at the file `func A() { B() }; func B() {}` followed by a file that
failed to parse. -/
theorem C1_node_closure_witness :
    processFiles [.ok fileAB, .error "syntax error"] = .ok graphAB ∧
    ((∀ a, graphAB.hasEdgeKey a → graphAB.hasNode a) ∧
     (∀ a b, graphAB.hasEdge a b → graphAB.hasNode a ∧ graphAB.hasNode b)) :=
  ⟨rfl, C1_node_closure [.ok fileAB, .error "syntax error"] graphAB rfl⟩


/-- C2, as stated, fails: on the empty graph `AddEdge(A, B)` records the edge
but neither endpoint is a node afterwards. -/
theorem C2_AddEdge_endpoints_counterexample :
    ¬ ((NewCallGraph.AddEdge ⟨"A", "", "p"⟩ ⟨"B", "", "p"⟩).hasNode ⟨"A", "", "p"⟩ ∧
       (NewCallGraph.AddEdge ⟨"A", "", "p"⟩ ⟨"B", "", "p"⟩).hasNode ⟨"B", "", "p"⟩ ∧
       (NewCallGraph.AddEdge ⟨"A", "", "p"⟩ ⟨"B", "", "p"⟩).hasEdge
          ⟨"A", "", "p"⟩ ⟨"B", "", "p"⟩) := by
  decide

/-- C2, amended: after `AddEdge(from, to)` the identity `to` is a member of
the adjacency set of `from`, and the node map is the one before the call
(`AddEdge` adds no node). -/
theorem C2_AddEdge_inserts_edge_only (cg : CallGraph) (from_ to_ : Function) :
    (cg.AddEdge from_ to_).hasEdge from_ to_ ∧
    (cg.AddEdge from_ to_).Nodes = cg.Nodes ∧
    (∀ x, (cg.AddEdge from_ to_).hasNode x ↔ cg.hasNode x) :=
  ⟨(hasEdge_AddEdge cg from_ to_ from_ to_).2 (Or.inl ⟨rfl, rfl⟩),
   Nodes_AddEdge cg from_ to_,
   fun x => hasNode_AddEdge cg from_ to_ x⟩

/-- C3: insertions are idempotent. `AddEdge(x, y)` twice gives the graph
`AddEdge(x, y)` gives once, in which the edge `x -> y` occurs exactly once;
`AddNode(x)` twice gives the graph `AddNode(x)` gives once, in which the node
`x` occurs exactly once. -/
theorem C3_insertions_idempotent (cg : CallGraph) (x y : Function) :
    (cg.AddEdge x y).AddEdge x y = cg.AddEdge x y ∧
    ((cg.AddEdge x y).AddEdge x y).edgeList.countP (fun e => decide (e = (x, y))) = 1 ∧
    (cg.AddNode x).AddNode x = cg.AddNode x ∧
    ((cg.AddNode x).AddNode x).nodeList.countP (fun n => decide (n = x)) = 1 := by
  have hE : (cg.AddEdge x y).AddEdge x y = cg.AddEdge x y := by
    unfold CallGraph.AddEdge
    cases hl : cg.Edges.lookup x with
    | none => simp [AList.lookup_insert, AList.insert_insert, -AList.insert_empty]
    | some tos => simp [AList.lookup_insert, AList.insert_insert]
  have hN : (cg.AddNode x).AddNode x = cg.AddNode x := by
    unfold CallGraph.AddNode
    simp [AList.insert_insert]
  refine ⟨hE, ?_, hN, ?_⟩
  · rw [hE]
    exact List.count_eq_one_of_mem (edgeList_nodup _)
      ((mem_edgeList _ x y).2 ((hasEdge_AddEdge cg x y x y).2 (Or.inl ⟨rfl, rfl⟩)))
  · rw [hN]
    exact List.count_eq_one_of_mem (nodeList_nodup _)
      ((mem_nodeList _ x).2 ((hasNode_AddNode cg x x).2 (Or.inl rfl)))

/-! ## The accumulated graph and the call resolver -/

/-- C4: the unresolved sentinel never enters the graph. When the function
names declared in every successfully parsed file are non-empty, the graph
accumulated from `NewCallGraph()` has no identity with an empty `Name` among
its nodes, among the keys of `Edges`, or in any adjacency set. -/
theorem C4_no_sentinel (files : List (Except String File)) (g : CallGraph)
    (hnames : ∀ file, Except.ok file ∈ files → ∀ nm ∈ declaredNames file, nm ≠ "")
    (h : processFiles files = .ok g) :
    (∀ x, g.hasNode x → x.Name ≠ "") ∧
    (∀ a, g.hasEdgeKey a → a.Name ≠ "") ∧
    (∀ a b, g.hasEdge a b → a.Name ≠ "" ∧ b.Name ≠ "") := by
  refine processFiles_invariant
    (fun s => (∀ x, s.hasNode x → x.Name ≠ "") ∧
      (∀ a, s.hasEdgeKey a → a.Name ≠ "") ∧
      (∀ a b, s.hasEdge a b → a.Name ≠ "" ∧ b.Name ≠ ""))
    files g ?_ ?_ h
  · intro file hfile fn hfn s s1 hs hrun
    obtain ⟨fromNode, body, hfrom, _, hnode, hedge, hkey⟩ :=
      analyzeFunction_spec fn file.Name _ s s1 hrun
    have hcaller : fromNode.Name ≠ "" := by
      rw [(callerIdentity_fields fn file.Name fromNode hfrom).1]
      exact hnames file hfile fn.Name (mem_declaredNames_of_mem file fn hfn)
    refine ⟨?_, ?_, ?_⟩
    · intro x hx
      rcases (hnode x).1 hx with h1 | h1 | ⟨_, _, _, hb⟩
      · exact hs.1 x h1
      · exact h1 ▸ hcaller
      · exact hb
    · intro a ha
      rcases hkey a ha with h1 | h1
      · exact hs.2.1 a h1
      · exact h1 ▸ hcaller
    · intro a b hab
      rcases (hedge a b).1 hab with h1 | ⟨ha, _, _, _, hb⟩
      · exact hs.2.2 a b h1
      · exact ⟨ha ▸ hcaller, hb⟩
  · exact ⟨fun x hx => absurd hx (not_hasNode_NewCallGraph x),
      fun a ha => absurd ha (not_hasEdgeKey_NewCallGraph a),
      fun a b hab => absurd hab (not_hasEdge_NewCallGraph a b)⟩

/-- C4 at the file `func A() { B() }; func B() {}`. -/
theorem C4_no_sentinel_witness :
    (∀ file, Except.ok file ∈ [(Except.ok fileAB : Except String File)] →
      ∀ nm ∈ declaredNames file, nm ≠ "") ∧
    processFiles [.ok fileAB] = .ok graphAB ∧
    ((∀ x, graphAB.hasNode x → x.Name ≠ "") ∧
     (∀ a, graphAB.hasEdgeKey a → a.Name ≠ "") ∧
     (∀ a b, graphAB.hasEdge a b → a.Name ≠ "" ∧ b.Name ≠ "")) :=
  have hn : ∀ file, Except.ok file ∈ [(Except.ok fileAB : Except String File)] →
      ∀ nm ∈ declaredNames file, nm ≠ "" := by
    intro file hfile
    have hf : file = fileAB := by simpa using hfile
    subst hf
    decide
  ⟨hn, rfl, C4_no_sentinel [.ok fileAB] graphAB hn rfl⟩

/-- C5: bare-identifier resolution. A call whose target is the bare
identifier `id`, with `id` in the lookup set, resolves to the identity with
package `pkg`, name `id` and no receiver. -/
theorem C5_bare_identifier (id : String) (args : List Node) (pkg : String)
    (funcDecls : GoMap String FuncDecl) (h : id ∈ funcDecls.keys) :
    parseCallExpr (.CallExpr (.Ident id) args) pkg funcDecls =
      { Package := pkg, Name := id, Receiver := "" } := by
  unfold parseCallExpr
  simp only [if_pos h]

/-- C5 at the call `B()` of `func A() { B() }` in package `p`. -/
theorem C5_bare_identifier_witness :
    "B" ∈ (collectFuncDecls fileAB.Decls).keys ∧
    parseCallExpr (.CallExpr (.Ident "B") []) "p" (collectFuncDecls fileAB.Decls) =
      { Package := "p", Name := "B", Receiver := "" } :=
  ⟨by decide, C5_bare_identifier "B" [] "p" (collectFuncDecls fileAB.Decls) (by decide)⟩

/-- C6: receiver heuristic. A call whose target is the selector `X.Sel` with
`X` a bare identifier, with `Sel` in the lookup set, resolves to the identity
with package `pkg`, name `Sel` and the text of `X` as receiver. -/
theorem C6_receiver_heuristic (x sel : String) (args : List Node) (pkg : String)
    (funcDecls : GoMap String FuncDecl) (h : sel ∈ funcDecls.keys) :
    parseCallExpr (.CallExpr (.SelectorExpr (.Ident x) sel) args) pkg funcDecls =
      { Package := pkg, Name := sel, Receiver := x } := by
  unfold parseCallExpr
  simp only [if_pos h]

/-- C6 at the call `t.Bar()` of `func (t *T) Foo()`, with `func (t T) Bar()`
declared. -/
theorem C6_receiver_heuristic_witness :
    "Bar" ∈ (collectFuncDecls fileFooBar.Decls).keys ∧
    parseCallExpr (.CallExpr (.SelectorExpr (.Ident "t") "Bar") []) "p"
        (collectFuncDecls fileFooBar.Decls) =
      { Package := "p", Name := "Bar", Receiver := "t" } :=
  ⟨by decide,
   C6_receiver_heuristic "t" "Bar" [] "p" (collectFuncDecls fileFooBar.Decls) (by decide)⟩

/-- C7: every other call-target shape is unresolved. When the target of a
call is neither a bare identifier of the lookup set nor a selector on a bare
identifier whose selected name is in the lookup set, `parseCallExpr` returns
`Function{}` and the visitor of `analyzeFunction` leaves the graph as it is
at that call: no node and no edge is added. -/
theorem C7_other_shapes_unresolved (f : Node) (args : List Node) (pkg : String)
    (funcDecls : GoMap String FuncDecl)
    (hident : ∀ nm, f = .Ident nm → nm ∉ funcDecls.keys)
    (hsel : ∀ x sel, f = .SelectorExpr (.Ident x) sel → sel ∉ funcDecls.keys) :
    parseCallExpr (.CallExpr f args) pkg funcDecls = Function.zero ∧
    ∀ (fromNode : Function) (g : CallGraph),
      inspectCall fromNode pkg funcDecls (some (.CallExpr f args)) g = (true, g) := by
  have hp : parseCallExpr (.CallExpr f args) pkg funcDecls = Function.zero := by
    unfold parseCallExpr
    split
    · rename_i nm _ heq
      injection heq with h1 h2
      rw [if_neg (hident nm h1)]
    · rename_i x sel _ heq
      injection heq with h1 h2
      rw [if_neg (hsel x sel h1)]
    · rfl
  refine ⟨hp, ?_⟩
  intro fromNode g
  unfold inspectCall
  simp [hp, Function.zero]

/-- C7 at the call `strings.ToUpper("x")` in a file that declares only `F`. -/
theorem C7_other_shapes_unresolved_witness :
    parseCallExpr callToUpper "p" (collectFuncDecls fileToUpper.Decls) = Function.zero ∧
    ∀ (fromNode : Function) (g : CallGraph),
      inspectCall fromNode "p" (collectFuncDecls fileToUpper.Decls) (some callToUpper) g =
        (true, g) :=
  C7_other_shapes_unresolved (.SelectorExpr (.Ident "strings") "ToUpper")
    [.Other .BasicLit []] "p" (collectFuncDecls fileToUpper.Decls)
    (fun _ h => nomatch h)
    (fun x sel h => by
      injection h with h1 h2
      subst h2
      decide)

/-- C8: a call to a name not declared in the file produces no node and no
edge. In the graph `processFile` builds from the empty graph, the `Name` of
every edge destination and of every node is the name of a function or method
declared at the top level of that file. -/
theorem C8_only_declared_names (file : File) (g : CallGraph)
    (h : processFile (.ok file) NewCallGraph = .ok g) :
    (∀ a b, g.hasEdge a b → b.Name ∈ declaredNames file) ∧
    (∀ x, g.hasNode x → x.Name ∈ declaredNames file) := by
  refine processFile_invariant
    (fun s => (∀ a b, s.hasEdge a b → b.Name ∈ declaredNames file) ∧
      (∀ x, s.hasNode x → x.Name ∈ declaredNames file))
    (.ok file) NewCallGraph g ?_ ?_ h
  · intro file1 hfile fn hfn s s1 hs hrun
    injection hfile with hfile
    subst hfile
    obtain ⟨fromNode, body, hfrom, _, hnode, hedge, _⟩ :=
      analyzeFunction_spec fn file.Name _ s s1 hrun
    have hcallee : ∀ (c : Node) (b : Function),
        parseCallExpr c file.Name (collectFuncDecls file.Decls) = b → b.Name ≠ "" →
          b.Name ∈ declaredNames file := by
      intro c b hp hb
      subst hp
      exact (mem_collectFuncDecls file _).1 (parseCallExpr_resolved c _ _ hb).1
    constructor
    · intro a b hab
      rcases (hedge a b).1 hab with h1 | ⟨_, c, _, hp, hb⟩
      · exact hs.1 a b h1
      · exact hcallee c b hp hb
    · intro x hx
      rcases (hnode x).1 hx with h1 | h1 | ⟨c, _, hp, hb⟩
      · exact hs.2 x h1
      · rw [h1, (callerIdentity_fields fn file.Name fromNode hfrom).1]
        exact mem_declaredNames_of_mem file fn hfn
      · exact hcallee c x hp hb
  · exact ⟨fun a b hab => absurd hab (not_hasEdge_NewCallGraph a b),
      fun x hx => absurd hx (not_hasNode_NewCallGraph x)⟩

/-- C8 at the file `func F() { strings.ToUpper("x") }`: the graph is the lone
node `F`. -/
theorem C8_only_declared_names_witness :
    processFile (.ok fileToUpper) NewCallGraph = .ok graphToUpper ∧
    ((∀ a b, graphToUpper.hasEdge a b → b.Name ∈ declaredNames fileToUpper) ∧
     (∀ x, graphToUpper.hasNode x → x.Name ∈ declaredNames fileToUpper)) :=
  ⟨rfl, C8_only_declared_names fileToUpper graphToUpper rfl⟩

/-- C9, as stated, fails: in `func A(B func()) { B() }` the call goes through
the parameter `B`; with a function `B` declared in the file the lookup set
contains the name, the call is resolved to the declared `B`, and the edge
`A -> B` is added to the empty graph. -/
theorem C9_call_through_parameter_counterexample :
    "B" ∈ paramNames fnShadow ∧
    fnShadow.Body = some [.Other .ExprStmt [.CallExpr (.Ident "B") []]] ∧
    parseCallExpr (.CallExpr (.Ident "B") []) "p" (collectFuncDecls fileShadow.Decls) =
      ⟨"B", "", "p"⟩ ∧
    analyzeFunction fnShadow "p" (collectFuncDecls fileShadow.Decls) NewCallGraph =
      .ok graphShadow ∧
    graphShadow.hasEdge ⟨"A", "", "p"⟩ ⟨"B", "", "p"⟩ ∧
    ¬ NewCallGraph.hasEdge ⟨"A", "", "p"⟩ ⟨"B", "", "p"⟩ :=
  ⟨by decide, rfl, by decide, rfl, by decide, by decide⟩

/-- C9, amended: resolution is by name. For a call of a bare identifier `id`
in the body of a declaration (in particular an identifier naming a parameter
or local variable): when `id` is not in the lookup set the call is unresolved
and `analyzeFunction` adds no edge whose destination is named `id`; when `id`
is in the lookup set the edge from the caller to the identity with package
`pkg`, name `id` and no receiver is in the result. -/
theorem C9_call_resolved_by_name (fn : FuncDecl) (pkg : String)
    (funcDecls : GoMap String FuncDecl) (g g1 : CallGraph) (fromNode : Function)
    (body : List Node) (id : String) (args : List Node)
    (hfrom : callerIdentity fn pkg = .ok fromNode) (hbody : fn.Body = some body)
    (hcall : Node.CallExpr (.Ident id) args ∈ (Node.Other .BlockStmt body).subnodes)
    (hrun : analyzeFunction fn pkg funcDecls g = .ok g1) :
    (id ∉ funcDecls.keys →
      parseCallExpr (.CallExpr (.Ident id) args) pkg funcDecls = Function.zero ∧
      ∀ a b, g1.hasEdge a b → b.Name = id → g.hasEdge a b) ∧
    (id ∈ funcDecls.keys → id ≠ "" →
      g1.hasEdge fromNode { Package := pkg, Name := id, Receiver := "" }) := by
  obtain ⟨fromNode1, body1, hfrom1, hbody1, _, hedge, _⟩ :=
    analyzeFunction_spec fn pkg funcDecls g g1 hrun
  have e1 : fromNode1 = fromNode := by
    rw [hfrom] at hfrom1
    injection hfrom1 with h
    exact h.symm
  have e2 : body1 = body := by
    rw [hbody] at hbody1
    injection hbody1 with h
    exact h.symm
  subst e1 e2
  constructor
  · intro hid
    constructor
    · unfold parseCallExpr
      simp only [if_neg hid]
    · intro a b hab hb
      rcases (hedge a b).1 hab with h1 | ⟨_, c, _, hp, hne⟩
      · exact h1
      · subst hp
        exact absurd (hb ▸ (parseCallExpr_resolved c pkg funcDecls hne).1) hid
  · intro hid hne
    refine (hedge _ _).2 (Or.inr ⟨rfl, .CallExpr (.Ident id) args, ?_, ?_, hne⟩)
    · exact List.mem_filter.2 ⟨hcall, rfl⟩
    · unfold parseCallExpr
      simp only [if_pos hid]

/-- C9, amended, at `func G(f func()) { f() }` in a file that declares `G`
and `H` (the call `f()` is unresolved, no edge named `f` is added) and at
`func A(B func()) { B() }` in a file that declares `B` (the edge `A -> B` is
in the result). -/
theorem C9_call_resolved_by_name_witness :
    ("f" ∈ paramNames fnParamCall ∧
     "f" ∉ (collectFuncDecls fileParamCall.Decls).keys ∧
     parseCallExpr (.CallExpr (.Ident "f") []) "p" (collectFuncDecls fileParamCall.Decls) =
       Function.zero ∧
     ∀ a b, (NewCallGraph.AddNode ⟨"G", "", "p"⟩).hasEdge a b → b.Name = "f" →
       NewCallGraph.hasEdge a b) ∧
    ("B" ∈ paramNames fnShadow ∧
     "B" ∈ (collectFuncDecls fileShadow.Decls).keys ∧
     graphShadow.hasEdge ⟨"A", "", "p"⟩ { Package := "p", Name := "B", Receiver := "" }) :=
  ⟨⟨by decide, by decide,
    (C9_call_resolved_by_name fnParamCall "p" (collectFuncDecls fileParamCall.Decls)
      NewCallGraph (NewCallGraph.AddNode ⟨"G", "", "p"⟩) ⟨"G", "", "p"⟩
      [.Other .ExprStmt [callF]] "f" [] rfl rfl
      (List.Mem.tail _ (List.Mem.tail _ (List.Mem.head _))) rfl).1 (by decide)⟩,
   ⟨by decide, by decide,
    (C9_call_resolved_by_name fnShadow "p" (collectFuncDecls fileShadow.Decls)
      NewCallGraph graphShadow ⟨"A", "", "p"⟩
      [.Other .ExprStmt [callB]] "B" [] rfl rfl
      (List.Mem.tail _ (List.Mem.tail _ (List.Mem.head _))) rfl).2 (by decide) (by decide)⟩⟩

/-- Exhaustive traversal outside the panic on the receiver list. For a
declaration with a body whose receiver list, when present, is not empty,
`analyzeFunction` returns; the edges of the result are those of the argument
graph and the pairs of the caller identity with the resolution of a call
expression occurring anywhere in the body subtree whose `Name` is non-empty;
the nodes of the result are those of the argument graph, the caller identity
and those resolved callees. -/
theorem analyzeFunction_exhaustive (fn : FuncDecl) (pkg : String)
    (funcDecls : GoMap String FuncDecl) (g : CallGraph) (body : List Node)
    (hrecv : fn.Recv ≠ some []) (hbody : fn.Body = some body) :
    ∃ fromNode g1, callerIdentity fn pkg = .ok fromNode ∧
      analyzeFunction fn pkg funcDecls g = .ok g1 ∧
      (∀ a b, g1.hasEdge a b ↔
        g.hasEdge a b ∨
          (a = fromNode ∧
            ∃ c ∈ (Node.Other .BlockStmt body).subnodes, c.isCall = true ∧
              parseCallExpr c pkg funcDecls = b ∧ b.Name ≠ "")) ∧
      (∀ x, g1.hasNode x ↔
        g.hasNode x ∨ x = fromNode ∨
          ∃ c ∈ (Node.Other .BlockStmt body).subnodes, c.isCall = true ∧
            parseCallExpr c pkg funcDecls = x ∧ x.Name ≠ "") := by
  obtain ⟨fromNode, hfrom⟩ := callerIdentity_ok_of_recv fn pkg hrecv
  have hrun := analyzeFunction_eq fn pkg funcDecls g fromNode body hfrom hbody
  obtain ⟨fromNode1, body1, hfrom1, hbody1, hnode, hedge, _⟩ :=
    analyzeFunction_spec fn pkg funcDecls g _ hrun
  have e1 : fromNode1 = fromNode := by
    rw [hfrom] at hfrom1
    injection hfrom1 with h
    exact h.symm
  have e2 : body1 = body := by
    rw [hbody] at hbody1
    injection hbody1 with h
    exact h.symm
  subst e1 e2
  refine ⟨fromNode1, _, hfrom, hrun, ?_, ?_⟩
  · intro a b
    rw [hedge a b]
    simp only [callExprs, List.mem_filter, and_assoc]
  · intro x
    rw [hnode x]
    simp only [callExprs, List.mem_filter, and_assoc]

/-- The exhaustive traversal at `func A() { B(C()); func() { D() }(); { x.E() } }`. -/
theorem analyzeFunction_exhaustive_at_nested :
    fnNested.Recv ≠ some [] ∧ fnNested.Body = some bodyNested ∧
    ∃ fromNode g1, callerIdentity fnNested "p" = .ok fromNode ∧
      analyzeFunction fnNested "p" (collectFuncDecls fileNested.Decls) NewCallGraph =
        .ok g1 ∧
      (∀ a b, g1.hasEdge a b ↔
        NewCallGraph.hasEdge a b ∨
          (a = fromNode ∧
            ∃ c ∈ (Node.Other .BlockStmt bodyNested).subnodes, c.isCall = true ∧
              parseCallExpr c "p" (collectFuncDecls fileNested.Decls) = b ∧ b.Name ≠ "")) ∧
      (∀ x, g1.hasNode x ↔
        NewCallGraph.hasNode x ∨ x = fromNode ∨
          ∃ c ∈ (Node.Other .BlockStmt bodyNested).subnodes, c.isCall = true ∧
            parseCallExpr c "p" (collectFuncDecls fileNested.Decls) = x ∧ x.Name ≠ "") :=
  ⟨(fun h => nomatch h), rfl,
   analyzeFunction_exhaustive fnNested "p" (collectFuncDecls fileNested.Decls) NewCallGraph
     bodyNested (fun h => nomatch h) rfl⟩

/-- C10, the code at the failing input: `func () F() { B() }` has a body, and
the one call expression of the body, `B()`, resolves to the declared `B` with
a non-empty `Name`, so the claim asks for the caller node and an edge to `B`;
the receiver list is empty, `analyzeFunction` panics at `fn.Recv.List[0]` on
every graph, and the run over the file ends in the panic: no node and no edge
is added for the declaration. -/
theorem C10_empty_receiver_adds_nothing :
    fnEmptyRecvCall.Recv = some [] ∧
    fnEmptyRecvCall.Body = some [.Other .ExprStmt [callB]] ∧
    (callExprs (.Other .BlockStmt [.Other .ExprStmt [callB]])).map
        (fun c => parseCallExpr c "p" (collectFuncDecls fileEmptyRecvCall.Decls)) =
      [⟨"B", "", "p"⟩] ∧
    (∀ g : CallGraph,
      analyzeFunction fnEmptyRecvCall "p" (collectFuncDecls fileEmptyRecvCall.Decls) g =
        .error .indexOutOfRange) ∧
    processFiles [.ok fileEmptyRecvCall] = .error .indexOutOfRange :=
  ⟨rfl, rfl, by decide, fun _ => rfl, rfl⟩

/-! ## The identity of the declaring function -/

theorem exprToString_foldl_selector (rest : List String) :
    ∀ (x : Node),
      exprToString (rest.foldl (fun x sel => Node.SelectorExpr x sel) x) =
        String.intercalate.go (exprToString x) "." rest := by
  induction rest with
  | nil => intro x; rfl
  | cons sel rest ih =>
      intro x
      rw [List.foldl_cons, ih (.SelectorExpr x sel)]
      rfl

/-- C11: identity of the declaring function. When `callerIdentity` is
defined (no receiver clause, or a receiver list with a first entry) it has
`Package = pkg` and `Name` the declared name; `Receiver` is empty without a
receiver clause, `"*"` followed by the text of `X` for a receiver type `*X`,
and the text of the receiver type otherwise. The text of an identifier is its
name, of a selector chain of identifiers the segments joined with `"."`, of a
selector the text of its operand, `"."` and the selected name, and of every
node that is neither identifier nor selector the empty string. -/
theorem C11_caller_identity (fn : FuncDecl) (pkg : String) :
    (∀ id, callerIdentity fn pkg = .ok id → id.Package = pkg ∧ id.Name = fn.Name) ∧
    (fn.Recv = none →
      callerIdentity fn pkg = .ok { Package := pkg, Name := fn.Name, Receiver := "" }) ∧
    (∀ field rest x, fn.Recv = some (field :: rest) → field.Type_ = .StarExpr x →
      callerIdentity fn pkg =
        .ok { Package := pkg, Name := fn.Name, Receiver := "*" ++ exprToString x }) ∧
    (∀ field rest, fn.Recv = some (field :: rest) → (∀ x, field.Type_ ≠ .StarExpr x) →
      callerIdentity fn pkg =
        .ok { Package := pkg, Name := fn.Name, Receiver := exprToString field.Type_ }) ∧
    (∀ nm, exprToString (.Ident nm) = nm) ∧
    (∀ s1 rest, exprToString (selectorChain s1 rest) = String.intercalate "." (s1 :: rest)) ∧
    (∀ x sel, exprToString (.SelectorExpr x sel) = exprToString x ++ "." ++ sel) ∧
    (∀ x, exprToString (.StarExpr x) = "") ∧
    (∀ f args, exprToString (.CallExpr f args) = "") ∧
    (∀ k cs, exprToString (.Other k cs) = "") := by
  refine ⟨fun id h => ⟨(callerIdentity_fields fn pkg id h).2,
      (callerIdentity_fields fn pkg id h).1⟩,
    ?_, ?_, ?_, fun _ => rfl, ?_, fun _ _ => rfl, fun _ => rfl, fun _ _ => rfl,
    fun _ _ => rfl⟩
  · intro h
    unfold callerIdentity
    rw [h]
  · intro field rest x h hx
    unfold callerIdentity
    rw [h]
    simp only [hx]
  · intro field rest h hx
    unfold callerIdentity
    rw [h]
    cases hT : field.Type_ with
    | StarExpr x => exact absurd hT (hx x)
    | _ => simp only [hT]
  · intro s1 rest
    unfold selectorChain
    rw [exprToString_foldl_selector]
    rfl

/-- C11 at `func (t *T) Foo()` in package `p`: the receiver text is `*T`. -/
theorem C11_caller_identity_witness :
    callerIdentity fnFoo "p" = .ok { Package := "p", Name := "Foo", Receiver := "*T" } :=
  (C11_caller_identity fnFoo "p").2.2.1 { Names := ["t"], Type_ := .StarExpr (.Ident "T") } []
    (.Ident "T") rfl rfl

/-! ## The exporter -/

theorem foldl_append_singleton {α : Type} (f : α → String) :
    ∀ (l : List α) (out : List String),
      l.foldl (fun acc e => acc ++ [f e]) out = out ++ l.map f
  | [], out => by simp
  | e :: l, out => by
      rw [List.foldl_cons, foldl_append_singleton f l]
      simp

theorem foldl_edges_eq (entries : List (Sigma fun _ : Function => GoMap Function Bool)) :
    ∀ (out : List String),
      entries.foldl
          (fun out e => e.2.entries.foldl (fun acc e2 => acc ++ [edgeStatement e.1 e2.1]) out)
          out =
        out ++ (entries.flatMap (fun e => e.2.keys.map (fun b => (e.1, b)))).map
          (fun p => edgeStatement p.1 p.2) := by
  induction entries with
  | nil => intro out; simp
  | cons e entries ih =>
      intro out
      rw [List.foldl_cons, ih,
        @foldl_append_singleton (Sigma fun _ : Function => Bool)
          (fun e2 => edgeStatement e.1 e2.1)]
      simp [List.flatMap_cons, AList.keys, List.keys, List.map_map, Function.comp_def]

/-- The output of `generateDot`: header, one line per node, a blank line, one
line per edge, closing brace. -/
theorem generateDot_eq (graph : CallGraph) :
    generateDot graph =
      ["digraph G \x7b", "  node [shape=box, style=filled];", "  edge [arrowsize=0.8];", ""] ++
        graph.nodeList.map nodeStatement ++ [""] ++
        graph.edgeList.map (fun p => edgeStatement p.1 p.2) ++ ["\x7d"] := by
  unfold generateDot CallGraph.nodeList CallGraph.edgeList
  simp only [foldl_edges_eq,
    @foldl_append_singleton (Sigma fun _ : Function => Bool) (fun e => nodeStatement e.1)]
  simp [AList.keys, List.keys, List.map_map, Function.comp_def]

theorem nodeStatement_mem_generateDot (graph : CallGraph) (node : Function)
    (h : graph.hasNode node) : nodeStatement node ∈ generateDot graph := by
  rw [generateDot_eq]
  have hm : nodeStatement node ∈ graph.nodeList.map nodeStatement :=
    List.mem_map.2 ⟨node, h, rfl⟩
  simp only [List.mem_append]
  exact Or.inl (Or.inl (Or.inl (Or.inr hm)))

/-- On a name that starts with an ASCII character the fill colour is
`lightcoral` exactly when that character is one of `A`-`Z`. -/
theorem fillColor_of_ascii (node : Function) (c : Char) (rest : List Char)
    (hname : node.Name.data = c :: rest) (hc : c.toNat < 0x80) :
    fillColor node = (if 0x41 ≤ c.toNat ∧ c.toNat ≤ 0x5A then "lightcoral" else "orange") := by
  unfold fillColor
  rw [hname]
  simp only [utf8FirstByte, if_pos hc, isUpperLatin1]
  by_cases h : 0x41 ≤ c.toNat ∧ c.toNat ≤ 0x5A
  · have h1 := h.1
    have h2 := h.2
    simp [h1, h2]
  · rw [if_neg h]
    have : ¬ (0xC0 ≤ c.toNat) := by omega
    have h3 : ¬ (0xD8 ≤ c.toNat) := by omega
    simp only [Bool.or_eq_true, Bool.and_eq_true, decide_eq_true_eq]
    rw [if_neg]
    rintro ((h4 | h4) | h4)
    · exact h h4
    · exact this h4.1
    · exact h3 h4.1

/-- C12, the code at a failing input: the name `ñu` starts with the lower-case
letter U+00F1, which `unicode.IsUpper` rejects; its first byte is 0xC3 (the
UTF-8 encoding of U+00F1 is 0xC3 0xB1), which read as a rune is the upper-case
letter U+00C3, so the node is printed with fill colour `lightcoral`. -/
theorem C12_fill_color_of_first_byte :
    "ñu".data.head? = some (Char.ofNat 0xF1) ∧
    isUpperLatin1 0xF1 = false ∧
    utf8FirstByte (Char.ofNat 0xF1) = 0xC3 ∧
    (String.utf8EncodeChar (Char.ofNat 0xF1)).map UInt8.toNat = [0xC3, 0xB1] ∧
    isUpperLatin1 0xC3 = true ∧
    fillColor ⟨"ñu", "", "p"⟩ = "lightcoral" ∧
    generateDot (NewCallGraph.AddNode ⟨"ñu", "", "p"⟩) =
      ["digraph G \x7b", "  node [shape=box, style=filled];", "  edge [arrowsize=0.8];", "",
       "  \"\x7bñu  p\x7d\" [label=\"ñu\", fillcolor=\"lightcoral\"];", "", "\x7d"] := by
  refine ⟨by decide, by decide, by decide, by decide, by decide, by decide, by decide⟩

/-- C13: node label. The label is `(Receiver).Name` when the receiver is
non-empty and `Name` when it is empty, and it is the label in the line
`generateDot` prints for every node of the graph. -/
theorem C13_node_label (node : Function) :
    (node.Receiver ≠ "" → nodeLabel node = "(" ++ node.Receiver ++ ")." ++ node.Name) ∧
    (node.Receiver = "" → nodeLabel node = node.Name) ∧
    (∀ graph : CallGraph, graph.hasNode node →
      "  \"" ++ nodeKey node ++ "\" [label=\"" ++ nodeLabel node ++ "\", fillcolor=\"" ++
        fillColor node ++ "\"];" ∈ generateDot graph) := by
  refine ⟨?_, ?_, ?_⟩
  · intro h
    unfold nodeLabel
    rw [if_pos h]
  · intro h
    unfold nodeLabel
    rw [if_neg (not_not.2 h)]
  · intro graph h
    exact nodeStatement_mem_generateDot graph node h

/-- C13 at the nodes of scenario 2: labels `(*T).Foo`, `(t).Bar`, and `A`
for a function without receiver. -/
theorem C13_node_label_witness :
    nodeLabel ⟨"Foo", "*T", "p"⟩ = "(*T).Foo" ∧ nodeLabel ⟨"Bar", "t", "p"⟩ = "(t).Bar" ∧
    nodeLabel ⟨"A", "", "p"⟩ = "A" :=
  ⟨(C13_node_label ⟨"Foo", "*T", "p"⟩).1 (by decide),
   (C13_node_label ⟨"Bar", "t", "p"⟩).1 (by decide),
   (C13_node_label ⟨"A", "", "p"⟩).2.1 rfl⟩

/-- A list is split in one way only at the first occurrence of an element. -/
theorem split_at_first_unique {α : Type} (c : α) :
    ∀ (l1 l2 r1 r2 : List α), c ∉ l1 → c ∉ l2 → l1 ++ c :: r1 = l2 ++ c :: r2 →
      l1 = l2 ∧ r1 = r2
  | [], [], r1, r2, _, _, h => by
      simp only [List.nil_append, List.cons.injEq, true_and] at h
      exact ⟨rfl, h⟩
  | [], y :: l2, r1, r2, _, h2, h => by
      simp only [List.nil_append, List.cons_append, List.cons.injEq] at h
      exact absurd (h.1 ▸ List.mem_cons_self _ _) h2
  | x :: l1, [], r1, r2, h1, _, h => by
      simp only [List.nil_append, List.cons_append, List.cons.injEq] at h
      exact absurd (h.1 ▸ List.mem_cons_self _ _) h1
  | x :: l1, y :: l2, r1, r2, h1, h2, h => by
      simp only [List.cons_append, List.cons.injEq] at h
      obtain ⟨e1, e2⟩ := split_at_first_unique c l1 l2 r1 r2
        (fun hm => h1 (List.mem_cons_of_mem _ hm))
        (fun hm => h2 (List.mem_cons_of_mem _ hm)) h.2
      exact ⟨by rw [h.1, e1], e2⟩

theorem nodeKey_data (node : Function) :
    (nodeKey node).data =
      Char.ofNat 0x7b ::
        (node.Name.data ++ ' ' :: (node.Receiver.data ++ ' ' ::
          (node.Package.data ++ [Char.ofNat 0x7d]))) := by
  unfold nodeKey
  simp only [String.data_append, List.append_assoc, List.cons_append, List.nil_append,
    List.singleton_append]

/-- Without a space in any field, the key determines the identity. -/
theorem nodeKey_injective (f1 f2 : Function)
    (h1 : ' ' ∉ f1.Name.data ∧ ' ' ∉ f1.Receiver.data ∧ ' ' ∉ f1.Package.data)
    (h2 : ' ' ∉ f2.Name.data ∧ ' ' ∉ f2.Receiver.data ∧ ' ' ∉ f2.Package.data)
    (h : nodeKey f1 = nodeKey f2) : f1 = f2 := by
  have hd : (nodeKey f1).data = (nodeKey f2).data := by rw [h]
  rw [nodeKey_data, nodeKey_data] at hd
  simp only [List.cons.injEq, true_and] at hd
  obtain ⟨eN, hd⟩ := split_at_first_unique ' ' _ _ _ _ h1.1 h2.1 hd
  obtain ⟨eR, hd⟩ := split_at_first_unique ' ' _ _ _ _ h1.2.1 h2.2.1 hd
  have eP := List.append_cancel_right hd
  obtain ⟨n1, r1, p1⟩ := f1
  obtain ⟨n2, r2, p2⟩ := f2
  simp only at eN eR eP
  rw [String.ext eN, String.ext eR, String.ext eP]

/-- C14: node keys are distinct for distinct identities. Two identities whose
fields contain no space and that differ in name, receiver or package have
different keys; in particular two nodes with the same label and different
packages have different keys. -/
theorem C14_node_keys_distinct (f1 f2 : Function)
    (h1 : ' ' ∉ f1.Name.data ∧ ' ' ∉ f1.Receiver.data ∧ ' ' ∉ f1.Package.data)
    (h2 : ' ' ∉ f2.Name.data ∧ ' ' ∉ f2.Receiver.data ∧ ' ' ∉ f2.Package.data) :
    (f1 ≠ f2 → nodeKey f1 ≠ nodeKey f2) ∧
    (nodeLabel f1 = nodeLabel f2 → f1.Package ≠ f2.Package → nodeKey f1 ≠ nodeKey f2) := by
  constructor
  · intro hne hk
    exact hne (nodeKey_injective f1 f2 h1 h2 hk)
  · intro _ hp hk
    exact hp (congrArg Function.Package (nodeKey_injective f1 f2 h1 h2 hk))

/-- C14 at the function `A` of package `p` and the function `A` of package
`q`: same label, keys `{A  p}` and `{A  q}`. -/
theorem C14_node_keys_distinct_witness :
    nodeLabel ⟨"A", "", "p"⟩ = nodeLabel ⟨"A", "", "q"⟩ ∧
    nodeKey ⟨"A", "", "p"⟩ = "\x7bA  p\x7d" ∧ nodeKey ⟨"A", "", "q"⟩ = "\x7bA  q\x7d" ∧
    nodeKey ⟨"A", "", "p"⟩ ≠ nodeKey ⟨"A", "", "q"⟩ :=
  ⟨by decide, by decide, by decide,
   (C14_node_keys_distinct ⟨"A", "", "p"⟩ ⟨"A", "", "q"⟩ (by decide) (by decide)).1
     (by decide)⟩

/-- C15: output document shape. The lines `generateDot` emits are the header,
one node statement for each entry of `nodeList` (every node once), a blank
line, one edge statement for each entry of `edgeList` (every edge once) and
the closing brace; the number of node statements is the number of nodes and
the number of edge statements the number of edges. -/
theorem C15_output_shape (graph : CallGraph) :
    generateDot graph =
      ["digraph G \x7b", "  node [shape=box, style=filled];", "  edge [arrowsize=0.8];", ""] ++
        graph.nodeList.map
          (fun node =>
            "  \"" ++ nodeKey node ++ "\" [label=\"" ++ nodeLabel node ++
              "\", fillcolor=\"" ++ fillColor node ++ "\"];") ++
        [""] ++
        graph.edgeList.map
          (fun p => "  \"" ++ nodeKey p.1 ++ "\" -> \"" ++ nodeKey p.2 ++ "\";") ++
        ["\x7d"] ∧
    graph.nodeList.Nodup ∧ (∀ x, x ∈ graph.nodeList ↔ graph.hasNode x) ∧
    graph.edgeList.Nodup ∧ (∀ a b, (a, b) ∈ graph.edgeList ↔ graph.hasEdge a b) ∧
    (graph.nodeList.map nodeStatement).length = graph.Nodes.keys.length ∧
    (graph.edgeList.map (fun p => edgeStatement p.1 p.2)).length =
      (graph.Edges.entries.map (fun e => e.2.keys.length)).sum ∧
    (generateDot graph).length = 4 + graph.nodeList.length + 1 + graph.edgeList.length + 1 := by
  refine ⟨generateDot_eq graph, nodeList_nodup graph, fun x => mem_nodeList graph x,
    edgeList_nodup graph, fun a b => mem_edgeList graph a b, ?_, ?_, ?_⟩
  · rw [List.length_map]
    rfl
  · rw [List.length_map]
    unfold CallGraph.edgeList
    rw [List.length_flatMap]
    congr 1
    refine List.map_congr_left ?_
    intro e _
    simp only [Function.comp_apply, List.length_map]
  · rw [generateDot_eq]
    simp only [List.length_append, List.length_map, List.length_cons, List.length_nil]

/-! ## The graph as the union of what the declarations contribute -/

theorem mem_resolvedCallees (body : List Node) (pkg : String)
    (funcDecls : GoMap String FuncDecl) (b : Function) :
    b ∈ resolvedCallees body pkg funcDecls ↔
      ∃ c ∈ callExprs (.Other .BlockStmt body),
        parseCallExpr c pkg funcDecls = b ∧ b.Name ≠ "" := by
  unfold resolvedCallees
  simp only [List.mem_filter, List.mem_map, decide_eq_true_eq]
  constructor
  · rintro ⟨⟨c, hc, hp⟩, hb⟩
    exact ⟨c, hc, hp, hb⟩
  · rintro ⟨c, hc, hp, hb⟩
    exact ⟨⟨c, hc, hp⟩, hb⟩

/-- The nodes and edges of the graph a returning `analyzeFunction` call
gives are those of its argument and those the declaration contributes. -/
theorem analyzeFunction_contrib (fn : FuncDecl) (pkg : String)
    (funcDecls : GoMap String FuncDecl) (g g1 : CallGraph)
    (h : analyzeFunction fn pkg funcDecls g = .ok g1) :
    (∀ x, g1.hasNode x ↔ g.hasNode x ∨ x ∈ declNodes fn pkg funcDecls) ∧
    (∀ p : Function × Function,
      g1.hasEdge p.1 p.2 ↔ g.hasEdge p.1 p.2 ∨ p ∈ declEdges fn pkg funcDecls) := by
  obtain ⟨fromNode, body, hfrom, hbody, hnode, hedge, _⟩ :=
    analyzeFunction_spec fn pkg funcDecls g g1 h
  constructor
  · intro x
    rw [hnode x]
    unfold declNodes
    simp only [hfrom, hbody, List.mem_cons, mem_resolvedCallees]
  · rintro ⟨a, b⟩
    rw [hedge a b]
    unfold declEdges
    simp only [hfrom, hbody, List.mem_map, mem_resolvedCallees, Prod.mk.injEq]
    constructor
    · rintro (h1 | ⟨rfl, c, hc, hp, hb⟩)
      · exact Or.inl h1
      · exact Or.inr ⟨b, ⟨c, hc, hp, hb⟩, rfl, rfl⟩
    · rintro (h1 | ⟨b1, ⟨c, hc, hp, hb⟩, rfl, rfl⟩)
      · exact Or.inl h1
      · exact Or.inr ⟨rfl, c, hc, hp, hb⟩

/-- A fold of steps that each add a list of contributions to a view of the
graph adds the contributions of all elements. -/
theorem foldlM_contrib {α X : Type} (V : CallGraph → X → Prop) (C : α → List X)
    (f : CallGraph → α → Except Panic CallGraph) :
    ∀ (l : List α) (g g1 : CallGraph),
      (∀ e ∈ l, ∀ s s1, f s e = .ok s1 → ∀ x, V s1 x ↔ V s x ∨ x ∈ C e) →
        l.foldlM f g = .ok g1 → ∀ x, V g1 x ↔ V g x ∨ x ∈ l.flatMap C
  | [], g, g1 => fun _ h x => by
      have : g = g1 := by simpa [List.foldlM, pure, Except.pure] using h
      subst this
      simp
  | e :: l, g, g1 => fun hstep h x => by
      rw [List.foldlM_cons] at h
      cases he : f g e with
      | error err => rw [he] at h; cases h
      | ok s1 =>
          rw [he] at h
          have ih := foldlM_contrib V C f l s1 g1
            (fun y hy => hstep y (List.mem_cons_of_mem _ hy)) h x
          rw [ih, hstep e (List.mem_cons_self _ _) g s1 he x, List.flatMap_cons,
            List.mem_append, or_assoc]

/-- A fold returns when every step returns from every state. -/
theorem foldlM_ok_of_forall {α : Type} (f : CallGraph → α → Except Panic CallGraph) :
    ∀ (l : List α) (g : CallGraph),
      (∀ e ∈ l, ∀ s, ∃ s1, f s e = .ok s1) → ∃ g1, l.foldlM f g = .ok g1
  | [], g => fun _ => ⟨g, rfl⟩
  | e :: l, g => fun hall => by
      obtain ⟨s1, hs1⟩ := hall e (List.mem_cons_self _ _) g
      obtain ⟨g1, hg1⟩ := foldlM_ok_of_forall f l s1
        (fun y hy => hall y (List.mem_cons_of_mem _ hy))
      refine ⟨g1, ?_⟩
      rw [List.foldlM_cons, hs1]
      exact hg1

/-- When a fold returns, every step returned from some state. -/
theorem foldlM_ok_steps {α : Type} (f : CallGraph → α → Except Panic CallGraph) :
    ∀ (l : List α) (g g1 : CallGraph),
      l.foldlM f g = .ok g1 → ∀ e ∈ l, ∃ s s1, f s e = .ok s1
  | [], _, _ => fun _ e he => absurd he (List.not_mem_nil e)
  | x :: l, g, g1 => fun h e he => by
      rw [List.foldlM_cons] at h
      cases hx : f g x with
      | error err => rw [hx] at h; cases h
      | ok s1 =>
          rw [hx] at h
          rcases List.mem_cons.1 he with rfl | hmem
          · exact ⟨g, s1, hx⟩
          · exact foldlM_ok_steps f l s1 g1 h e hmem

/-- Whether `analyzeFunction` returns does not depend on the graph. -/
theorem analyzeFunction_ok_indep (fn : FuncDecl) (pkg : String)
    (funcDecls : GoMap String FuncDecl) (g g1 : CallGraph)
    (h : analyzeFunction fn pkg funcDecls g = .ok g1) (s : CallGraph) :
    ∃ s1, analyzeFunction fn pkg funcDecls s = .ok s1 := by
  obtain ⟨fromNode, body, hfrom, hbody⟩ := analyzeFunction_ok_inv fn pkg funcDecls g g1 h
  exact ⟨_, analyzeFunction_eq fn pkg funcDecls s fromNode body hfrom hbody⟩

/-- Whether `processFile` returns does not depend on the graph. -/
theorem processFile_ok_indep (parsed : Except String File) (g g1 : CallGraph)
    (h : processFile parsed g = .ok g1) (s : CallGraph) :
    ∃ s1, processFile parsed s = .ok s1 := by
  cases parsed with
  | error e => exact ⟨s, rfl⟩
  | ok file =>
      unfold processFile analyzeDecls at h ⊢
      refine foldlM_ok_of_forall _ file.Decls s ?_
      intro decl hdecl t
      obtain ⟨u, u1, hu⟩ := foldlM_ok_steps _ file.Decls g g1 h decl hdecl
      cases decl with
      | GenDecl => exact ⟨t, rfl⟩
      | FuncDecl fn => exact analyzeFunction_ok_indep fn _ _ u u1 hu t

/-- The nodes and edges of the graph a returning `processFile` call gives are
those of its argument and those the file contributes. -/
theorem processFile_contrib (parsed : Except String File) (g g1 : CallGraph)
    (h : processFile parsed g = .ok g1) :
    (∀ x, g1.hasNode x ↔ g.hasNode x ∨ x ∈ fileNodes parsed) ∧
    (∀ p : Function × Function,
      g1.hasEdge p.1 p.2 ↔ g.hasEdge p.1 p.2 ∨ p ∈ fileEdges parsed) := by
  cases parsed with
  | error e =>
      have : g = g1 := by
        unfold processFile at h
        injection h
      subst this
      simp [fileNodes, fileEdges]
  | ok file =>
      unfold processFile analyzeDecls at h
      constructor
      · refine foldlM_contrib (fun s x => s.hasNode x) _ _ file.Decls g g1 ?_ h
        intro decl _ s s1 hrun x
        cases decl with
        | GenDecl =>
            injection hrun with hrun
            subst hrun
            simp
        | FuncDecl fn => exact (analyzeFunction_contrib fn _ _ s s1 hrun).1 x
      · refine foldlM_contrib (fun s (p : Function × Function) => s.hasEdge p.1 p.2) _ _
          file.Decls g g1 ?_ h
        intro decl _ s s1 hrun p
        cases decl with
        | GenDecl =>
            injection hrun with hrun
            subst hrun
            simp
        | FuncDecl fn => exact (analyzeFunction_contrib fn _ _ s s1 hrun).2 p

/-- The nodes and edges of the graph `processFiles` returns are those the
files contribute. -/
theorem processFiles_contrib (files : List (Except String File)) (g : CallGraph)
    (h : processFiles files = .ok g) :
    (∀ x, g.hasNode x ↔ x ∈ files.flatMap fileNodes) ∧
    (∀ p : Function × Function, g.hasEdge p.1 p.2 ↔ p ∈ files.flatMap fileEdges) := by
  unfold processFiles at h
  constructor
  · intro x
    rw [foldlM_contrib (fun s x => s.hasNode x) fileNodes _ files NewCallGraph g
      (fun parsed _ s s1 hrun => (processFile_contrib parsed s s1 hrun).1) h x]
    simp [not_hasNode_NewCallGraph]
  · intro p
    rw [foldlM_contrib (fun s (p : Function × Function) => s.hasEdge p.1 p.2) fileEdges _
      files NewCallGraph g
      (fun parsed _ s s1 hrun => (processFile_contrib parsed s s1 hrun).2) h p]
    simp [not_hasEdge_NewCallGraph]

/-! ## Files, declarations and the accumulated graph -/

/-- C16: content is independent of file order. When the run over a sequence
of files returns a graph, the run over any permutation of the sequence (the
same sequence included) returns a graph with the same nodes and the same
edges. -/
theorem C16_file_order_independent (files1 files2 : List (Except String File))
    (g1 : CallGraph) (hperm : files1.Perm files2) (h : processFiles files1 = .ok g1) :
    ∃ g2, processFiles files2 = .ok g2 ∧
      (∀ x, g2.hasNode x ↔ g1.hasNode x) ∧
      (∀ a b, g2.hasEdge a b ↔ g1.hasEdge a b) := by
  have hok : ∃ g2, processFiles files2 = .ok g2 := by
    unfold processFiles at h ⊢
    refine foldlM_ok_of_forall _ files2 NewCallGraph ?_
    intro parsed hparsed s
    obtain ⟨u, u1, hu⟩ := foldlM_ok_steps _ files1 NewCallGraph g1 h parsed
      (hperm.mem_iff.2 hparsed)
    exact processFile_ok_indep parsed u u1 hu s
  obtain ⟨g2, hg2⟩ := hok
  obtain ⟨hn1, he1⟩ := processFiles_contrib files1 g1 h
  obtain ⟨hn2, he2⟩ := processFiles_contrib files2 g2 hg2
  refine ⟨g2, hg2, ?_, ?_⟩
  · intro x
    rw [hn1 x, hn2 x]
    simp only [List.mem_flatMap]
    constructor
    · rintro ⟨p, hp, hx⟩
      exact ⟨p, hperm.mem_iff.2 hp, hx⟩
    · rintro ⟨p, hp, hx⟩
      exact ⟨p, hperm.mem_iff.1 hp, hx⟩
  · intro a b
    rw [he1 (a, b), he2 (a, b)]
    simp only [List.mem_flatMap]
    constructor
    · rintro ⟨p, hp, hx⟩
      exact ⟨p, hperm.mem_iff.2 hp, hx⟩
    · rintro ⟨p, hp, hx⟩
      exact ⟨p, hperm.mem_iff.1 hp, hx⟩

/-- C16 at the files of scenarios 1 and 2, in both orders. -/
theorem C16_file_order_independent_witness :
    processFiles [.ok fileAB, .ok fileFooBar] = .ok graphABFooBar ∧
    ∃ g2, processFiles [.ok fileFooBar, .ok fileAB] = .ok g2 ∧
      (∀ x, g2.hasNode x ↔ graphABFooBar.hasNode x) ∧
      (∀ a b, g2.hasEdge a b ↔ graphABFooBar.hasEdge a b) :=
  ⟨rfl, C16_file_order_independent [.ok fileAB, .ok fileFooBar]
    [.ok fileFooBar, .ok fileAB] graphABFooBar (List.Perm.swap _ _ _) rfl⟩

theorem foldl_inspectCall_of_no_call (fromNode : Function) (pkg : String)
    (funcDecls : GoMap String FuncDecl) :
    ∀ (l : List Node) (g : CallGraph), l.filter Node.isCall = [] →
      l.foldl (fun s1 m => (inspectCall fromNode pkg funcDecls (some m) s1).2) g = g
  | [], _, _ => rfl
  | m :: l, g, h => by
      have hm : m.isCall = false := by
        cases hc : m.isCall with
        | false => rfl
        | true => simp [List.filter_cons, hc] at h
      have hl : l.filter Node.isCall = [] := by
        simpa [List.filter_cons, hm] using h
      rw [List.foldl_cons, inspectCall_of_not_isCall _ _ _ _ _ hm,
        foldl_inspectCall_of_no_call fromNode pkg funcDecls l g hl]

/-- A declaration whose body holds no call expression adds its caller node
and nothing else. -/
theorem analyzeFunction_of_no_call (fn : FuncDecl) (pkg : String)
    (funcDecls : GoMap String FuncDecl) (g : CallGraph) (fromNode : Function)
    (body : List Node) (hfrom : callerIdentity fn pkg = .ok fromNode)
    (hbody : fn.Body = some body) (hcalls : callExprs (.Other .BlockStmt body) = []) :
    analyzeFunction fn pkg funcDecls g = .ok (g.AddNode fromNode) := by
  rw [analyzeFunction_eq fn pkg funcDecls g fromNode body hfrom hbody,
    foldl_inspectCall_of_no_call fromNode pkg funcDecls _ _ hcalls]

/-- C17, as stated, fails: `func init() {}` has no call in its body, yet in the
graph of the file `func init() { B() }; func init() {}; func B() {}` built
from the empty graph its identity has the outgoing edge `init -> B`, which
the other declaration of the same identity contributes. -/
theorem C17_lone_node_counterexample :
    fileTwoInit.Decls = [.FuncDecl fnInitCalls, .FuncDecl fnInitEmpty, .FuncDecl fnB] ∧
    fnInitEmpty.Body = some [] ∧
    callExprs (.Other .BlockStmt []) = [] ∧
    callerIdentity fnInitEmpty "p" = .ok ⟨"init", "", "p"⟩ ∧
    processFile (.ok fileTwoInit) NewCallGraph = .ok graphTwoInit ∧
    graphTwoInit.hasEdge ⟨"init", "", "p"⟩ ⟨"B", "", "p"⟩ :=
  ⟨rfl, rfl, rfl, rfl, rfl, by decide⟩

/-- C17, amended: when `processFile` returns on a parsed file, the identity of
every function or method declared in it is a node of the result. A
declaration whose body holds no call expression adds its caller node and no
edge to any graph; in the graph built from the empty graph its identity has
no outgoing edge when every declaration of the file with that identity has a
body without call expression. -/
theorem C17_declared_functions_are_nodes (file : File) (g g1 : CallGraph)
    (h : processFile (.ok file) g = .ok g1) :
    (∀ fn, Decl.FuncDecl fn ∈ file.Decls →
      ∃ id, callerIdentity fn file.Name = .ok id ∧ g1.hasNode id) ∧
    (∀ fn body id, Decl.FuncDecl fn ∈ file.Decls → fn.Body = some body →
      callExprs (.Other .BlockStmt body) = [] → callerIdentity fn file.Name = .ok id →
      (∀ funcDecls s, analyzeFunction fn file.Name funcDecls s = .ok (s.AddNode id)) ∧
      (g = NewCallGraph →
        (∀ fn2 body2, Decl.FuncDecl fn2 ∈ file.Decls →
          callerIdentity fn2 file.Name = .ok id → fn2.Body = some body2 →
            callExprs (.Other .BlockStmt body2) = []) →
        ∀ b, ¬ g1.hasEdge id b)) := by
  obtain ⟨hnode, hedge⟩ := processFile_contrib (.ok file) g g1 h
  constructor
  · intro fn hfn
    have hrun := h
    unfold processFile analyzeDecls at hrun
    obtain ⟨u, u1, hu⟩ := foldlM_ok_steps _ file.Decls g g1 hrun (.FuncDecl fn) hfn
    obtain ⟨fromNode, body, hfrom, hbody⟩ := analyzeFunction_ok_inv fn _ _ u u1 hu
    refine ⟨fromNode, hfrom, (hnode fromNode).2 (Or.inr ?_)⟩
    unfold fileNodes
    refine List.mem_flatMap.2 ⟨.FuncDecl fn, hfn, ?_⟩
    unfold declNodes
    simp only [hfrom, hbody]
    exact List.mem_cons_self _ _
  · intro fn body id hfn hbody hcalls hid
    constructor
    · intro funcDecls s
      exact analyzeFunction_of_no_call fn file.Name funcDecls s id body hid hbody hcalls
    · intro hg hall b hb
      subst hg
      rcases (hedge (id, b)).1 hb with h1 | h1
      · exact not_hasEdge_NewCallGraph id b h1
      · unfold fileEdges at h1
        obtain ⟨decl, hdecl, hmem⟩ := List.mem_flatMap.1 h1
        cases decl with
        | GenDecl => simp at hmem
        | FuncDecl fn2 =>
            simp only at hmem
            unfold declEdges at hmem
            cases hc : callerIdentity fn2 file.Name with
            | error e => simp [hc] at hmem
            | ok from2 =>
                cases hb2 : fn2.Body with
                | none => simp [hc, hb2] at hmem
                | some body2 =>
                    simp only [hc, hb2, List.mem_map, Prod.mk.injEq] at hmem
                    obtain ⟨b1, hb1, hfrom2, _⟩ := hmem
                    subst hfrom2
                    have hnil := hall fn2 body2 hdecl hc hb2
                    unfold resolvedCallees at hb1
                    simp [hnil] at hb1

/-- C17, amended, at the file `func A() { B() }; func B() {}`: `B` has no call
in its body and no outgoing edge. -/
theorem C17_declared_functions_are_nodes_witness :
    processFile (.ok fileAB) NewCallGraph = .ok graphAB ∧
    (∃ id, callerIdentity fnB "p" = .ok id ∧ graphAB.hasNode id) ∧
    analyzeFunction fnB "p" (collectFuncDecls fileAB.Decls) NewCallGraph =
      .ok (NewCallGraph.AddNode ⟨"B", "", "p"⟩) ∧
    ∀ b, ¬ graphAB.hasEdge ⟨"B", "", "p"⟩ b :=
  have hB : Decl.FuncDecl fnB ∈ fileAB.Decls := List.Mem.tail _ (List.Mem.head _)
  have hthm := C17_declared_functions_are_nodes fileAB NewCallGraph graphAB rfl
  ⟨rfl, hthm.1 fnB hB,
   (hthm.2 fnB [] ⟨"B", "", "p"⟩ hB rfl rfl rfl).1 (collectFuncDecls fileAB.Decls)
     NewCallGraph,
   (hthm.2 fnB [] ⟨"B", "", "p"⟩ hB rfl rfl rfl).2 rfl
     (by
       intro fn2 body2 hfn2 hid hbody2
       simp only [fileAB, List.mem_cons, Decl.FuncDecl.injEq, List.mem_singleton,
         List.not_mem_nil, or_false] at hfn2
       rcases hfn2 with rfl | rfl
       · have h2 : (Except.ok ⟨"A", "", "p"⟩ : Except Panic Function) =
             .ok ⟨"B", "", "p"⟩ := hid
         injection h2 with h2
         exact absurd h2 (by decide)
       · injection hbody2 with hbody2
         subst hbody2
         rfl)⟩

/-- C18: a file that fails to parse contributes nothing. `processFile` on a
parse error returns the graph it was given, and the run over a sequence of
files is the run over the sequence without the failed file. -/
theorem C18_parse_failure_skipped (err : String) (g : CallGraph) :
    processFile (.error err) g = .ok g ∧
    ∀ files1 files2 : List (Except String File),
      processFiles (files1 ++ .error err :: files2) = processFiles (files1 ++ files2) := by
  refine ⟨rfl, ?_⟩
  intro files1 files2
  unfold processFiles
  rw [List.foldlM_append, List.foldlM_append]
  cases List.foldlM (fun g parsed => processFile parsed g) NewCallGraph files1 with
  | error e => rfl
  | ok s => rfl

/-- Outside the two panics `analyzeFunction` returns and the caller is a node
of the result: with no receiver clause or a non-empty receiver list, and
with a body. -/
theorem analyzeFunction_returns (fn : FuncDecl) (pkg : String)
    (funcDecls : GoMap String FuncDecl) (g : CallGraph) (body : List Node)
    (hrecv : fn.Recv ≠ some []) (hbody : fn.Body = some body) :
    ∃ fromNode g1, callerIdentity fn pkg = .ok fromNode ∧
      analyzeFunction fn pkg funcDecls g = .ok g1 ∧ g1.hasNode fromNode := by
  obtain ⟨fromNode, hfrom⟩ := callerIdentity_ok_of_recv fn pkg hrecv
  have hrun := analyzeFunction_eq fn pkg funcDecls g fromNode body hfrom hbody
  obtain ⟨hnode, _⟩ := analyzeFunction_contrib fn pkg funcDecls g _ hrun
  refine ⟨fromNode, _, hfrom, hrun, (hnode fromNode).2 (Or.inr ?_)⟩
  unfold declNodes
  simp only [hfrom, hbody]
  exact List.mem_cons_self _ _

/-- C19, the code at the failing inputs: on the declaration without body
`func F()` the walk dereferences the nil body, on `func () F() {}` the index
`fn.Recv.List[0]` is out of range, and a run over a file that holds such a
declaration ends in the panic instead of a graph. -/
theorem C19_analyzeFunction_panics :
    (∀ (pkg : String) (funcDecls : GoMap String FuncDecl) (g : CallGraph),
      analyzeFunction fnNoBody pkg funcDecls g = .error .nilDereference) ∧
    (∀ (pkg : String) (funcDecls : GoMap String FuncDecl) (g : CallGraph),
      analyzeFunction fnEmptyRecv pkg funcDecls g = .error .indexOutOfRange) ∧
    processFiles [.ok fileNoBody] = .error .nilDereference :=
  ⟨fun _ _ _ => rfl, fun _ _ _ => rfl, rfl⟩

/-- C20: edges never leave the unit of the file. Every edge of the graph
`processFile` returns that was not in the graph before has its source and its
destination in the package of the file, and its source is the caller identity
of a function or method declared in the file. -/
theorem C20_edges_stay_in_unit (file : File) (g g1 : CallGraph)
    (h : processFile (.ok file) g = .ok g1) :
    ∀ a b, g1.hasEdge a b → ¬ g.hasEdge a b →
      a.Package = file.Name ∧ b.Package = file.Name ∧
        ∃ fn, Decl.FuncDecl fn ∈ file.Decls ∧ callerIdentity fn file.Name = .ok a := by
  intro a b hab hnew
  rcases ((processFile_contrib (.ok file) g g1 h).2 (a, b)).1 hab with h1 | h1
  · exact absurd h1 hnew
  · unfold fileEdges at h1
    obtain ⟨decl, hdecl, hmem⟩ := List.mem_flatMap.1 h1
    cases decl with
    | GenDecl => simp at hmem
    | FuncDecl fn =>
        simp only at hmem
        unfold declEdges at hmem
        cases hc : callerIdentity fn file.Name with
        | error e => simp [hc] at hmem
        | ok fromNode =>
            cases hb : fn.Body with
            | none => simp [hc, hb] at hmem
            | some body =>
                simp only [hc, hb, List.mem_map, Prod.mk.injEq] at hmem
                obtain ⟨b1, hb1, hfrom, hto⟩ := hmem
                subst hfrom hto
                obtain ⟨c, _, hp, hne⟩ := (mem_resolvedCallees body _ _ b1).1 hb1
                subst hp
                exact ⟨(callerIdentity_fields fn file.Name fromNode hc).2,
                  (parseCallExpr_resolved c _ _ hne).2, fn, hdecl, hc⟩

/-- C20 at the file `func A() { B() }; func B() {}` of package `p`. -/
theorem C20_edges_stay_in_unit_witness :
    processFile (.ok fileAB) NewCallGraph = .ok graphAB ∧
    ∀ a b, graphAB.hasEdge a b → ¬ NewCallGraph.hasEdge a b →
      a.Package = "p" ∧ b.Package = "p" ∧
        ∃ fn, Decl.FuncDecl fn ∈ fileAB.Decls ∧ callerIdentity fn "p" = .ok a :=
  ⟨rfl, C20_edges_stay_in_unit fileAB NewCallGraph graphAB rfl⟩

end CallGraphTool
